import Mathlib

/-!
Verification of the `pymon` telemetry pipeline (metric catalog, volatile
time-series store, scrape parser) against its natural-language specification.

The Python sources are shallowly embedded:
* Python `dict`s become insertion-ordered association lists (`alGet`, `alSet`),
  matching CPython's guaranteed insertion order on iteration;
* `float` values become `ℚ` (all values appearing in the claims are exact in
  both models);
* `datetime` values become `Int` timestamps, `timedelta` an `Int` duration;
* fallible code returns `Except PyError`; the constructor
  `PyError.blockedForever` models a thread that blocks forever trying to
  acquire a non-reentrant `threading.Lock` it already holds (CPython
  `threading.Lock` is not reentrant, so a nested `with self._lock` inside a
  method already holding the lock never proceeds);
* string manipulation is modelled on `List Char` (`Chars`); `String` wrappers
  are used at the interfaces.
-/

namespace Pymon

/-- Exceptions and non-termination outcomes of the embedded Python code. -/
inductive PyError where
  | nameError : PyError
  | valueError : PyError
  | blockedForever : PyError
deriving DecidableEq

abbrev Chars := List Char

instance {ε α : Type} [DecidableEq ε] [DecidableEq α] : DecidableEq (Except ε α) := fun a b =>
  match a, b with
  | .ok x, .ok y =>
    if h : x = y then isTrue (by rw [h]) else isFalse (by intro hh; cases hh; exact h rfl)
  | .error x, .error y =>
    if h : x = y then isTrue (by rw [h]) else isFalse (by intro hh; cases hh; exact h rfl)
  | .ok _, .error _ => isFalse (by intro hh; cases hh)
  | .error _, .ok _ => isFalse (by intro hh; cases hh)

/-- The double-quote character. -/
def qc : Char := Char.ofNat 34

/-- The opening curly-brace character. -/
def lbc : Char := Char.ofNat 123

/-- The closing curly-brace character. -/
def rbc : Char := Char.ofNat 125

/-- The newline character. -/
def nlc : Char := '\n'

/-- The whitespace set of Python `str.strip()` / `str.split()`. -/
def isPySpace (c : Char) : Bool :=
  c = ' ' || c = '\t' || c = '\n' || c = '\r' || c = Char.ofNat 11 || c = Char.ofNat 12

/-- Drop chars satisfying `p` from the end of a list. -/
def dropEnd (p : Char → Bool) (l : Chars) : Chars :=
  (l.reverse.dropWhile p).reverse

/-- Python `str.strip(chars)`: drop chars satisfying `p` from both ends. -/
def pyStripWith (p : Char → Bool) (l : Chars) : Chars :=
  dropEnd p (l.dropWhile p)

/-- Python `str.strip()` (whitespace). -/
def pyStrip (l : Chars) : Chars := pyStripWith isPySpace l

/-- Python `str.strip('"')`. -/
def stripQuotes (l : Chars) : Chars := pyStripWith (fun c => c = qc) l

/-- Python `s.split(c, 1)` when the separator occurs: the part before the
first occurrence of `c` and the part after it; `none` when `c` is absent. -/
def splitFirst (c : Char) : Chars → Option (Chars × Chars)
  | [] => none
  | x :: xs =>
    if x = c then some ([], xs)
    else (splitFirst c xs).map (fun p => (x :: p.1, p.2))

/-- Python `s.rsplit(c, 1)` when the separator occurs: the part before the
last occurrence of `c` and the part after it; `none` when `c` is absent. -/
def splitLast (c : Char) (l : Chars) : Option (Chars × Chars) :=
  (splitFirst c l.reverse).map (fun p => (p.2.reverse, p.1.reverse))

/-- Python `s.split(c)` (keeps empty parts, `"".split(c) = [""]`). -/
def splitAll (c : Char) : Chars → List Chars
  | [] => [[]]
  | x :: xs =>
    if x = c then [] :: splitAll c xs
    else
      match splitAll c xs with
      | [] => [[x]]
      | a :: rest => (x :: a) :: rest

/-- Helper for `splitWs`: accumulates the current word (reversed). -/
def wordsAux : Chars → Chars → List Chars
  | [], acc => if acc = [] then [] else [acc.reverse]
  | c :: cs, acc =>
    if isPySpace c then
      if acc = [] then wordsAux cs [] else acc.reverse :: wordsAux cs []
    else wordsAux cs (c :: acc)

/-- Python `str.split()` with no argument: words separated by runs of
whitespace, no empty parts. -/
def splitWs (l : Chars) : List Chars := wordsAux l []

/-- Decimal digit test (`'0'` to `'9'`), on code points. -/
def isDigitC (c : Char) : Bool := 48 ≤ c.toNat && c.toNat ≤ 57

/-- Numeric value of a digit string (most significant first). -/
def digitsVal (l : Chars) : ℕ :=
  l.foldl (fun a c => 10 * a + (c.toNat - 48)) 0

/-- The conversion applied by `pyFloat` after whitespace stripping. -/
def pyFloatCore (l : Chars) : Option ℚ :=
  let sl : ℚ × Chars :=
    match l with
    | '-' :: r => (-1, r)
    | '+' :: r => (1, r)
    | _ => (1, l)
  let ip := sl.2.takeWhile isDigitC
  let r1 := sl.2.dropWhile isDigitC
  let fr : Chars × Chars :=
    match r1 with
    | '.' :: r => (r.takeWhile isDigitC, r.dropWhile isDigitC)
    | _ => ([], r1)
  if ip = [] ∧ fr.1 = [] then none
  else
    let mant : ℚ := (digitsVal ip : ℚ) + (digitsVal fr.1 : ℚ) / (10 : ℚ) ^ fr.1.length
    match fr.2 with
    | [] => some (sl.1 * mant)
    | e :: r =>
      if e = 'e' ∨ e = 'E' then
        let se : ℤ × Chars :=
          match r with
          | '-' :: r2 => (-1, r2)
          | '+' :: r2 => (1, r2)
          | _ => (1, r)
        let ed := se.2.takeWhile isDigitC
        let rest := se.2.dropWhile isDigitC
        if ed = [] ∨ rest ≠ [] then none
        else some (sl.1 * mant * (10 : ℚ) ^ (se.1 * (digitsVal ed : ℤ)))
      else none

/-- Model of Python `float(s)` on the decimal fragment: optional sign,
digits with an optional decimal point, an optional decimal exponent,
surrounding whitespace allowed.  The special spellings `inf`/`nan` and
underscore digit separators accepted by CPython are outside the modelled
fragment; no claim depends on them.  The result is the exact rational value
of the literal. -/
def pyFloat (l0 : Chars) : Option ℚ :=
  pyFloatCore (pyStrip l0)

/-- Decimal digits of `n`, most significant first, via explicit fuel. -/
def natCharsAux : ℕ → ℕ → Chars
  | 0, _ => []
  | fuel + 1, n =>
    if n = 0 then [] else natCharsAux fuel (n / 10) ++ [Char.ofNat (48 + n % 10)]

/-- Decimal rendering of a natural number (`"0"` for zero). -/
def natChars (n : ℕ) : Chars :=
  if n = 0 then ['0'] else natCharsAux (n + 1) n

/-- Digits of the fractional part `q ∈ [0,1)`, stopping at zero remainder,
with fuel 17 (the maximum number of significant digits Python ever prints
for a float). -/
def fracCharsAux : ℕ → ℚ → Chars
  | 0, _ => []
  | fuel + 1, q =>
    if q = 0 then []
    else
      let d : ℕ := (⌊q * 10⌋).toNat
      Char.ofNat (48 + d) :: fracCharsAux fuel (q * 10 - (d : ℚ))

/-- Model of Python `str(x)` on a float `x`, for values with a terminating
decimal expansion of at most 17 fractional digits (there `repr` prints the
exact value, e.g. `str(3.0) = "3.0"`, `str(12.5) = "12.5"`).  Values needing
scientific notation or shortest-repr rounding are outside the modelled
fragment; claims involving printed values are stated under a round-trip
hypothesis that pins the value to this fragment. -/
def pyFloatStr (q : ℚ) : Chars :=
  let a := |q|
  let ip : ℕ := (⌊a⌋).toNat
  let fr := a - (ip : ℚ)
  let fchars := fracCharsAux 17 fr
  (if q < 0 then ['-'] else []) ++ natChars ip ++ '.' :: (if fchars = [] then ['0'] else fchars)

section AList

variable {κ β : Type} [DecidableEq κ]

/-- Association-list lookup (models Python `dict` lookup). -/
def alGet : List (κ × β) → κ → Option β
  | [], _ => none
  | p :: ps, k => if p.1 = k then some p.2 else alGet ps k

/-- Association-list lookup with default (models `dict.get(k, d)`). -/
def alGetD (l : List (κ × β)) (k : κ) (d : β) : β :=
  (alGet l k).getD d

/-- Association-list update: replace in place when the key is present, else
append (models Python `dict` assignment, which preserves insertion order). -/
def alSet : List (κ × β) → κ → β → List (κ × β)
  | [], k, v => [(k, v)]
  | p :: ps, k, v => if p.1 = k then (k, v) :: ps else p :: alSet ps k v

/-- Remove the (first) binding of a key. -/
def alErase : List (κ × β) → κ → List (κ × β)
  | [], _ => []
  | p :: ps, k => if p.1 = k then ps else p :: alErase ps k

/-- The keys of an association list. -/
def alKeys (l : List (κ × β)) : List κ := l.map Prod.fst

end AList

/-- `MetricType` (src/pymon/metrics/models.py). -/
inductive MetricType where
  | counter : MetricType
  | gauge : MetricType
  | histogram : MetricType
  | summary : MetricType
deriving DecidableEq

/-- The `.value` string of each `MetricType` enum member. -/
def MetricType.value : MetricType → String
  | .counter => "counter"
  | .gauge => "gauge"
  | .histogram => "histogram"
  | .summary => "summary"

/-- `Label` (src/pymon/metrics/models.py). -/
structure Label where
  name : String
  value : String
deriving DecidableEq

/-- Python `sorted(labels, key=lambda x: x.name)`: a stable sort comparing
names only.  `List.insertionSort` with `≤` on names is stable in the same
sense (an earlier element with an equal key stays before a later one). -/
def labelsSorted (ls : List Label) : List Label :=
  List.insertionSort (fun a b => a.name ≤ b.name) ls

/-- The canonical label-set key (`Metric.labels_key` in
src/pymon/metrics/models.py): sort by label name (stably), render each label
as `name=value` and join with commas. -/
def labelsKeyOf (ls : List Label) : String :=
  String.intercalate "," ((labelsSorted ls).map (fun l => l.name ++ "=" ++ l.value))

/-- `Metric` (src/pymon/metrics/models.py).  `value` is `ℚ` for the Python
float, `timestamp` an `Int` for the Python datetime. -/
structure Metric where
  name : String
  value : ℚ
  metric_type : MetricType
  labels : List Label
  timestamp : Int
  help_text : String
deriving DecidableEq

/-- The `labels_key` property of `Metric`. -/
def Metric.labels_key (m : Metric) : String := labelsKeyOf m.labels

/-- `MetricSeries` (src/pymon/metrics/models.py). -/
structure MetricSeries where
  name : String
  metric_type : MetricType
  help_text : String
  labels : List Label
deriving DecidableEq

/-- State of `MetricsRegistry` (src/pymon/metrics/collector.py).
`metrics` models `self._metrics : dict[str, dict[str, Metric]]` and `series`
models `self._series : dict[str, MetricSeries]` as insertion-ordered
association lists.  `lockHeld` models `self._lock`, a non-reentrant
`threading.Lock`: public methods entered while it is held block forever. -/
structure MetricsRegistry where
  metrics : List (String × List (String × Metric))
  series : List (String × MetricSeries)
  lockHeld : Bool
deriving DecidableEq

/-- The registry as freshly constructed. -/
def emptyRegistry : MetricsRegistry := ⟨[], [], false⟩

/-- `MetricsRegistry.register`.  Under the lock: create the series if the
name is unknown, then return the stored series (subsequent calls ignore the
kind/help/labels arguments). -/
def MetricsRegistry.register (r : MetricsRegistry) (name : String)
    (metric_type : MetricType) (help_text : String) (labels : List Label) :
    Except PyError (MetricsRegistry × MetricSeries) :=
  if r.lockHeld then .error .blockedForever
  else
    match alGet r.series name with
    | some s => .ok (r, s)
    | none =>
      let s : MetricSeries := ⟨name, metric_type, help_text, labels⟩
      .ok ({ r with series := alSet r.series name s }, s)

/-- `MetricsRegistry.set`.  Under the lock: `ValueError` when the name was
never registered, else upsert the `Metric` at its `labels_key`.  The fresh
`Metric`'s timestamp is the current time (`datetime.now`), passed here as
`now`; no claim depends on it. -/
def MetricsRegistry.set (r : MetricsRegistry) (name : String) (value : ℚ)
    (labels : List Label) (now : Int) : Except PyError MetricsRegistry :=
  if r.lockHeld then .error .blockedForever
  else
    match alGet r.series name with
    | none => .error .valueError
    | some s =>
      let m : Metric := ⟨name, value, s.metric_type, labels, now, s.help_text⟩
      .ok { r with
              metrics := alSet r.metrics name (alSet (alGetD r.metrics name []) m.labels_key m) }

/-- The registry state produced by a successful `MetricsRegistry.set` on a
registry whose `series` entry for `name` is `s`. -/
def setResult (r : MetricsRegistry) (name : String) (v : ℚ) (ls : List Label)
    (t : Int) (s : MetricSeries) : MetricsRegistry :=
  let m : Metric := ⟨name, v, s.metric_type, ls, t, s.help_text⟩
  { r with metrics := alSet r.metrics name (alSet (alGetD r.metrics name []) (labelsKeyOf ls) m) }

/-- `MetricsRegistry.inc`.  Under the lock: `ValueError` when unregistered;
when a `Metric` exists at the key, add `value` to it in place; otherwise the
source calls `self.set(name, value, labels)` while still holding the
non-reentrant lock, which blocks forever — modelled by invoking `set` on a
state with `lockHeld := true`. -/
def MetricsRegistry.inc (r : MetricsRegistry) (name : String) (value : ℚ)
    (labels : List Label) (now : Int) : Except PyError MetricsRegistry :=
  if r.lockHeld then .error .blockedForever
  else
    match alGet r.series name with
    | none => .error .valueError
    | some _ =>
      let key := labelsKeyOf labels
      match alGet (alGetD r.metrics name []) key with
      | some m =>
        .ok { r with
                metrics := alSet r.metrics name
                  (alSet (alGetD r.metrics name []) key { m with value := m.value + value }) }
      | none =>
        (MetricsRegistry.set { r with lockHeld := true } name value labels now).map
          (fun r2 => { r2 with lockHeld := false })

/-- `MetricsRegistry.get_all_metrics`: all stored `Metric`s, outer dict in
insertion order, inner dicts in insertion order. -/
def MetricsRegistry.get_all_metrics (r : MetricsRegistry) : List Metric :=
  r.metrics.flatMap (fun p => p.2.map Prod.snd)

/-- One `(name, label list, value)` sample event. -/
abbrev Triple := String × List Label × ℚ

/-- `DataPoint` (src/pymon/storage/backend.py). -/
structure DataPoint where
  timestamp : Int
  value : ℚ
deriving DecidableEq

/-- State of `MemoryStorage` (src/pymon/storage/backend.py): map from
`f"{name}:{labels_key}"` to the ordered list of points, plus the retention
window (`timedelta(hours=retention_hours)`, modelled in seconds).  The
per-instance `asyncio.Lock` serializes `write`/`read` but has no observable
effect on the sequential behaviour the claims are about, so it is not
modelled. -/
structure MemoryStorage where
  data : List (String × List DataPoint)
  retention : Int
deriving DecidableEq

/-- A fresh `MemoryStorage(retention_hours)`. -/
def memoryStorage (retention_hours : Int) : MemoryStorage :=
  ⟨[], retention_hours * 3600⟩

/-- `MemoryStorage.write`: append the point under `f"{name}:{labels_key}"`
(a `defaultdict(list)`), then call `_cleanup(key)`.  `_cleanup` evaluates
`datetime.now(timezone.utc)` but backend.py imports only `datetime` and
`timedelta`, so the unbound name `timezone` raises `NameError` before the
retention filter runs: the append survives, the call never returns normally,
and no point is ever evicted. -/
def MemoryStorage.write (s : MemoryStorage) (m : Metric) :
    MemoryStorage × Except PyError Unit :=
  let key := m.name ++ ":" ++ m.labels_key
  let s2 : MemoryStorage :=
    { s with data := alSet s.data key (alGetD s.data key [] ++ [⟨m.timestamp, m.value⟩]) }
  (s2, .error .nameError)

/-- Truthiness of the optional `labels` filter argument (`if labels:` in
Python is false for `None` and for an empty dict). -/
def labelsTruthy : Option (List (String × String)) → Bool
  | some (_ :: _) => true
  | _ => false

/-- `MemoryStorage.read`: for every stored key starting with `f"{name}:"`,
skip it entirely when a non-empty `labels` filter was given (the filter is
unimplemented), else collect the points with `start ≤ timestamp ≤ end`.
`step` is accepted and ignored. -/
def MemoryStorage.read (s : MemoryStorage) (name : String) (start tEnd : Int)
    (labels : Option (List (String × String))) (step : Int) : List DataPoint :=
  let kpre := name ++ ":"
  s.data.flatMap (fun kv =>
    if ¬ (kpre.data.isPrefixOf kv.1.data) then []
    else if labelsTruthy labels then []
    else kv.2.filter (fun p => start ≤ p.timestamp ∧ p.timestamp ≤ tEnd))

/-- One `key="value"` chunk of a label block
(src/pymon/scrape.py, `_parse_prometheus_response`): chunks without `=` are
ignored; the name is whitespace-stripped, the value quote-stripped. -/
def parseLabelStr (ls : Chars) : Option (String × String) :=
  if ls.contains '=' then
    match splitFirst '=' ls with
    | some p => some (String.mk (pyStrip p.1), String.mk (stripQuotes p.2))
    | none => none
  else none

/-- One line of `_parse_prometheus_response` (src/pymon/scrape.py lines
124-151): strip; skip blank and `#` lines; with a brace, split name, label
block and value (any failure — unbalanced braces, bad float — yields `none`,
the Python `except: continue`); without, split on whitespace into
`name value`.  `static` is `list(target.labels.items())`, dropped when
`honor` (= `target.honor_labels`) is set.  The result is the
`(name, labels, value)` written to the Catalog and the Store. -/
def parseLine (static : List (String × String)) (honor : Bool) (line0 : Chars) :
    Option Triple :=
  let line := pyStrip line0
  if line = [] then none
  else if line.head? = some '#' then none
  else if line.contains lbc then
    match splitFirst lbc line with
    | none => none
    | some p1 =>
      match splitLast rbc p1.2 with
      | none => none
      | some p2 =>
        match pyFloat p2.2 with
        | none => none
        | some v =>
          let base := if honor then [] else static
          let parsed := (splitAll ',' p2.1).filterMap parseLabelStr
          some (String.mk (pyStrip p1.1),
                ((base ++ parsed).map (fun q => Label.mk q.1 q.2), v))
  else
    match splitWs line with
    | n :: vs :: _ =>
      match pyFloat vs with
      | none => none
      | some v =>
        let base := if honor then [] else static
        some (String.mk n, (base.map (fun q => Label.mk q.1 q.2), v))
    | _ => none

/-- All sample events produced by `_parse_prometheus_response` on a body:
the body is split on newlines and each line contributes at most one event
(one `metrics[name] = value`, one `registry.set`, one `storage.write`). -/
def parseEvents (static : List (String × String)) (honor : Bool)
    (content : Chars) : List Triple :=
  (splitAll nlc content).filterMap (parseLine static honor)

/-- The `metrics` dict returned by `_parse_prometheus_response`: the events
folded into a name-keyed dict (later lines overwrite earlier ones). -/
def parseDict (events : List Triple) : List (String × ℚ) :=
  events.foldl (fun d e => alSet d e.1 e.2.2) []

/-- Python's substring test `needle in haystack`. -/
def pyIn (needle : Chars) : Chars → Bool
  | [] => needle.isPrefixOf []
  | c :: t => needle.isPrefixOf (c :: t) || pyIn needle t

/-- The fields of `ScrapeTarget` (src/pymon/scrape.py) the parser and the
fetch gate depend on.  `labels` models the target's static label dict as an
insertion-ordered list. -/
structure ScrapeTargetM where
  labels : List (String × String)
  honor_labels : Bool
deriving DecidableEq

/-- An HTTP response as seen by `scrape_target`; the fetch itself (URL
resolution, timeout, redirects) is outside the embedded fragment, so the
response is a parameter. -/
structure HttpResponse where
  status_code : Nat
  content_type : String
  text : String
deriving DecidableEq

/-- The fields of `ScrapeResult` the claims depend on.  `metrics` holds the
parse events (empty when parsing was not attempted — `result.metrics = {}`
initially), `metricsDict` the returned dict. -/
structure ScrapeResultM where
  success : Bool
  status_code : Nat
  metrics : List Triple
  metricsDict : List (String × ℚ)
  metrics_count : Nat
deriving DecidableEq

/-- `ScrapeManager.scrape_target` (src/pymon/scrape.py lines 75-118), given
the fetched response: `success` iff status 200; the body is parsed only when
additionally the Content-Type header contains `"text/plain"` or
`"application/openmetrics"`; otherwise `result.metrics` keeps its initial
empty value and `metrics_count` stays 0. -/
def scrape_target (target : ScrapeTargetM) (resp : HttpResponse) : ScrapeResultM :=
  let success : Bool := resp.status_code == 200
  let ctOk : Bool := pyIn "text/plain".data resp.content_type.data
      || pyIn "application/openmetrics".data resp.content_type.data
  if success && ctOk then
    let ev := parseEvents target.labels target.honor_labels resp.text.data
    let d := parseDict ev
    ⟨true, resp.status_code, ev, d, d.length⟩
  else
    ⟨success, resp.status_code, [], [], 0⟩

/-- The `", ".join(...)` of rendered label chunks in `export_prometheus`. -/
def joinCommaSpace : List Chars → Chars
  | [] => []
  | [c] => c
  | c :: cs => c ++ ',' :: ' ' :: joinCommaSpace cs

/-- One rendered label `f'{l.name}="{l.value}"'`. -/
def renderLabelChunk (l : Label) : Chars :=
  l.name.data ++ '=' :: qc :: l.value.data ++ [qc]

/-- One sample line of `export_prometheus`:
`f"{name}{label_str} {metric.value}"` where `name` is the outer dict key the
export loop iterates over, and `label_str` is empty for a label-free metric
and a brace-wrapped comma-space join otherwise. -/
def renderSample (name : String) (m : Metric) : Chars :=
  name.data
    ++ (if m.labels = [] then []
        else lbc :: joinCommaSpace (m.labels.map renderLabelChunk) ++ [rbc])
    ++ ' ' :: pyFloatStr m.value

/-- The `f"# HELP {name} {series.help_text}"` line. -/
def helpLine (name : String) (s : MetricSeries) : Chars :=
  "# HELP ".data ++ name.data ++ ' ' :: s.help_text.data

/-- The `f"# TYPE {name} {series.metric_type.value}"` line. -/
def typeLine (name : String) (s : MetricSeries) : Chars :=
  "# TYPE ".data ++ name.data ++ ' ' :: (MetricType.value s.metric_type).data

/-- The lines of `MetricsRegistry.export_prometheus`
(src/pymon/metrics/collector.py lines 66-78): series sorted by name
(`sorted(self._series.items())`; names are unique keys so the comparison
never reaches the series value), then per series a HELP line, a TYPE line
and one line per stored sample in insertion order
(`self._metrics.get(name, {}).values()`). -/
def exportLines (r : MetricsRegistry) : List Chars :=
  (List.insertionSort (fun a b => a.1 ≤ b.1) r.series).flatMap
    (fun p => helpLine p.1 p.2 :: typeLine p.1 p.2 ::
      (alGetD r.metrics p.1 []).map (fun kv => renderSample p.1 kv.2))

/-- Join of the export lines with `"\n"` (`"\n".join(lines)`). -/
def joinNl : List Chars → Chars
  | [] => []
  | [c] => c
  | c :: cs => c ++ nlc :: joinNl cs

/-- `MetricsRegistry.export_prometheus` as a character list. -/
def export_prometheus (r : MetricsRegistry) : Chars := joinNl (exportLines r)

/-- Scenario A of the spec: register `requests_total` as a Counter with help
"Total requests", increment three times with the default delta 1, export.
The clock arguments are successive instants; they do not affect control
flow. -/
def scenarioA : Except PyError Chars := do
  let p ← emptyRegistry.register "requests_total" .counter "Total requests" []
  let r1 ← p.1.inc "requests_total" 1 [] 0
  let r2 ← r1.inc "requests_total" 1 [] 1
  let r3 ← r2.inc "requests_total" 1 [] 2
  pure (export_prometheus r3)

/-- A registry holding one registered counter `c` and no samples (the state
after `register("c", COUNTER, "h")` on a fresh registry). -/
def c5Reg : MetricsRegistry := ⟨[], [("c", ⟨"c", .counter, "h", []⟩)], false⟩

/-- A registry holding one registered gauge `x` and no samples. -/
def c6Reg : MetricsRegistry := ⟨[], [("x", ⟨"x", .gauge, "", []⟩)], false⟩

/-- Two label lists with the same (name, value) pairs in different orders,
with a repeated label name `a`. -/
def c6Labels1 : List Label := [⟨"a", "1"⟩, ⟨"a", "2"⟩]

/-- See `c6Labels1`. -/
def c6Labels2 : List Label := [⟨"a", "2"⟩, ⟨"a", "1"⟩]

/-- The two `set` calls of the label-order claim run in sequence, returning
the number of distinct series stored under `x` afterwards. -/
def c6Run : Except PyError ℕ := do
  let r1 ← c6Reg.set "x" 1 c6Labels1 0
  let r2 ← r1.set "x" 2 c6Labels2 0
  pure (alGetD r2.metrics "x" []).length

/-- A fresh volatile store with a 1-hour retention window. -/
def c1Store0 : MemoryStorage := memoryStorage 1

/-- A metric sample for series `m` (no labels) taken at time 0. -/
def c1Old : Metric := ⟨"m", 1, .gauge, [], 0, ""⟩

/-- A later sample for the same series, taken at time 10000 — more than the
1-hour (3600 s) retention window after `c1Old`. -/
def c1New : Metric := ⟨"m", 2, .gauge, [], 10000, ""⟩

/-- The store after writing `c1Old` (the write also raises `NameError`; the
state retains the appended point). -/
def c1Store1 : MemoryStorage := (c1Store0.write c1Old).1

/-- A store built by writing one sample of the metric named `a:x` (empty
label set) at time 5.  Its single storage key is `"a:x:"`. -/
def c8Store : MemoryStorage :=
  ((memoryStorage 24).write ⟨"a:x", 1, .gauge, [], 5, ""⟩).1

/-- A scrape target with no static labels and `honor_labels=False`. -/
def c3Target : ScrapeTargetM := ⟨[], false⟩

/-- A 200 response whose Content-Type is not a text/plain or OpenMetrics
variant, with a perfectly parseable body. -/
def c3Resp : HttpResponse := ⟨200, "application/json", "up 1"⟩

/-- Exposition-format well-formedness of a metric name: non-empty, no
whitespace, no opening brace, does not start the comment marker.  Names
outside this set (none are produced by well-behaved exporters) break the
line grammar of the format itself. -/
abbrev nameOk (s : String) : Prop :=
  s.data ≠ [] ∧ (∀ c ∈ s.data, isPySpace c = false ∧ c ≠ lbc) ∧ s.data.head? ≠ some '#'

/-- Well-formedness of a label name for the round trip: no comma (the label
block separator), no equals sign (the pair separator), no newline, and no
leading/trailing whitespace (the parser strips the name). -/
abbrev labelNameOk (s : String) : Prop :=
  (∀ c ∈ s.data, c ≠ ',' ∧ c ≠ '=' ∧ c ≠ nlc) ∧ pyStrip s.data = s.data

/-- Well-formedness of a label value for the round trip: no comma, no
newline, and no leading or trailing double quote (the parser strips all
boundary quotes). -/
abbrev labelValueOk (s : String) : Prop :=
  (∀ c ∈ s.data, c ≠ ',' ∧ c ≠ nlc) ∧ s.data.head? ≠ some qc ∧ s.data.getLast? ≠ some qc

/-- The printed form of the value re-reads to the same value.  This pins the
value to the modelled decimal fragment of Python float printing; every float
satisfies the Python analogue (`float(str(x)) == x`). -/
abbrev valueOk (q : ℚ) : Prop := pyFloat (pyFloatStr q) = some q

/-- Round-trip well-formedness of one stored sample. -/
abbrev metricWF (m : Metric) : Prop :=
  nameOk m.name ∧ (∀ l ∈ m.labels, labelNameOk l.name ∧ labelValueOk l.value) ∧
    valueOk m.value

/-- Structural invariant of a registry state, maintained by the
`register`/`set` code paths: dict keys are unique, every name with samples
is registered, and every sample sits under its own name and canonical
label-set key. -/
abbrev RegInvariant (r : MetricsRegistry) : Prop :=
  (alKeys r.metrics).Nodup ∧ (alKeys r.series).Nodup ∧
  (∀ p ∈ r.metrics, (alGet r.series p.1).isSome = true ∧
    ∀ q ∈ p.2, q.2.name = p.1 ∧ q.1 = labelsKeyOf q.2.labels)

/-- Round-trip well-formedness of a registry: newline-free series names and
help texts (keeping each HELP/TYPE line a single comment line) and
well-formed stored samples. -/
abbrev RegWF (r : MetricsRegistry) : Prop :=
  (∀ p ∈ r.series, nlc ∉ p.1.data ∧ nlc ∉ p.2.help_text.data) ∧
  (∀ p ∈ r.metrics, ∀ q ∈ p.2, metricWF q.2)

/-- The `(name, label-set key, value)` view of a sample event, identifying
label lists up to the canonical key. -/
def tripleKey (e : Triple) : String × String × ℚ := (e.1, labelsKeyOf e.2.1, e.2.2)

/-- A registry holding a registered gauge `x` and one sample whose label
value contains a comma — the state after `register("x", GAUGE)` and
`set("x", 1, [Label("a", "1,b")])`. -/
def c4Reg : MetricsRegistry :=
  ⟨[("x", [(labelsKeyOf [⟨"a", "1,b"⟩], ⟨"x", 1, .gauge, [⟨"a", "1,b"⟩], 0, ""⟩)])],
   [("x", ⟨"x", .gauge, "", []⟩)], false⟩

/-- A well-formed registry with one labeled gauge sample and one bare
counter sample, used to instantiate the round-trip theorem. -/
def c4Good : MetricsRegistry :=
  ⟨[("x", [(labelsKeyOf [⟨"a", "1"⟩, ⟨"b", "2"⟩],
      ⟨"x", 25 / 2, .gauge, [⟨"a", "1"⟩, ⟨"b", "2"⟩], 0, ""⟩)]),
    ("c", [("", ⟨"c", 3, .counter, [], 0, "Total"⟩)])],
   [("x", ⟨"x", .gauge, "help x", []⟩), ("c", ⟨"c", .counter, "Total", []⟩)], false⟩

section AListLemmas

variable {κ β : Type} [DecidableEq κ]

theorem alGet_alSet_self (l : List (κ × β)) (k : κ) (v : β) :
    alGet (alSet l k v) k = some v := by
  induction l with
  | nil => simp [alGet, alSet]
  | cons p ps ih =>
    by_cases h : p.1 = k
    · simp [alGet, alSet, h]
    · simp [alGet, alSet, h, ih]

theorem alGet_alSet_ne (l : List (κ × β)) (k k2 : κ) (v : β) (h : k2 ≠ k) :
    alGet (alSet l k v) k2 = alGet l k2 := by
  have h2 : k ≠ k2 := Ne.symm h
  induction l with
  | nil => simp [alGet, alSet, h2]
  | cons p ps ih =>
    by_cases hp : p.1 = k
    · subst hp
      simp [alGet, alSet, h2]
    · by_cases hp2 : p.1 = k2 <;> simp [alGet, alSet, hp, hp2, ih, h]

theorem length_alSet_of_mem (l : List (κ × β)) (k : κ) (v : β)
    (h : (alGet l k).isSome = true) : (alSet l k v).length = l.length := by
  induction l with
  | nil => simp [alGet] at h
  | cons p ps ih =>
    by_cases hp : p.1 = k
    · simp [alSet, hp]
    · simp [alGet, hp] at h
      simp [alSet, hp, ih h]

end AListLemmas

/-- C10: every call to `MemoryStorage.write` raises `NameError` (the
`_cleanup` step evaluates `datetime.now(timezone.utc)` while backend.py
never imports `timezone`); the new `DataPoint` is appended under the written
key before the error, and no previously stored point is ever removed, so
eviction never happens. -/
theorem write_always_raises_and_never_evicts (s : MemoryStorage) (m : Metric) :
    (s.write m).2 = .error .nameError ∧
    alGet (s.write m).1.data (m.name ++ ":" ++ m.labels_key)
      = some (alGetD s.data (m.name ++ ":" ++ m.labels_key) [] ++ [⟨m.timestamp, m.value⟩]) ∧
    (∀ k pts p, alGet s.data k = some pts → p ∈ pts →
      ∃ pts2, alGet (s.write m).1.data k = some pts2 ∧ p ∈ pts2) := by
  refine ⟨rfl, alGet_alSet_self _ _ _, ?_⟩
  intro k pts p hk hp
  by_cases hkey : k = m.name ++ ":" ++ m.labels_key
  · have hk2 : alGet s.data (m.name ++ ":" ++ m.labels_key) = some pts := hkey ▸ hk
    refine ⟨alGetD s.data (m.name ++ ":" ++ m.labels_key) [] ++ [⟨m.timestamp, m.value⟩], ?_, ?_⟩
    · rw [hkey]
      exact alGet_alSet_self _ _ _
    · simp [alGetD, hk2, List.mem_append, hp]
  · exact ⟨pts, by rw [MemoryStorage.write, alGet_alSet_ne _ _ _ _ hkey]; exact hk, hp⟩

/-- C10 witness: on a store already holding a point for series `m`, a write
of a fresh sample errors with `NameError`, stores the appended history, and
keeps the old point. -/
theorem write_always_raises_and_never_evicts_witness :
    ((⟨[("m:", [⟨0, 1⟩])], 3600⟩ : MemoryStorage).write ⟨"m", 2, .gauge, [], 50, ""⟩).2
        = .error .nameError ∧
    alGet ((⟨[("m:", [⟨0, 1⟩])], 3600⟩ : MemoryStorage).write ⟨"m", 2, .gauge, [], 50, ""⟩).1.data
        ("m" ++ ":" ++ Metric.labels_key ⟨"m", 2, .gauge, [], 50, ""⟩)
      = some (alGetD (⟨[("m:", [⟨0, 1⟩])], 3600⟩ : MemoryStorage).data
          ("m" ++ ":" ++ Metric.labels_key ⟨"m", 2, .gauge, [], 50, ""⟩) [] ++ [⟨50, 2⟩]) ∧
    (∀ k pts p, alGet (⟨[("m:", [⟨0, 1⟩])], 3600⟩ : MemoryStorage).data k = some pts → p ∈ pts →
      ∃ pts2,
        alGet ((⟨[("m:", [⟨0, 1⟩])], 3600⟩ : MemoryStorage).write ⟨"m", 2, .gauge, [], 50, ""⟩).1.data k
          = some pts2 ∧ p ∈ pts2) :=
  write_always_raises_and_never_evicts ⟨[("m:", [⟨0, 1⟩])], 3600⟩ ⟨"m", 2, .gauge, [], 50, ""⟩

/-- C1: evaluation of the code at the failing input.  After a point of
series `m` at time 0 and a second write at time 10000 (far beyond the
3600-second retention window), the write raises `NameError` and a subsequent
`read` still returns the aged-out point — the write-triggered eviction the
claim describes never runs. -/
theorem c1_store_eval :
    (c1Store1.write c1New).2 = .error .nameError ∧
    (⟨0, 1⟩ : DataPoint) ∈ (c1Store1.write c1New).1.read "m" 0 20000 none 60 := by
  with_unfolding_all decide

/-- C5: evaluation of the code at the failing input.  On a registry with a
registered counter `c` and no sample at the empty label set, the very first
`inc` blocks forever: `inc` holds the non-reentrant registry lock and calls
`self.set`, which tries to acquire the same lock. -/
theorem c5_first_inc_blocks :
    emptyRegistry.register "c" .counter "h" [] = .ok (c5Reg, ⟨"c", .counter, "h", []⟩) ∧
    c5Reg.inc "c" 1 [] 0 = .error .blockedForever := by
  with_unfolding_all decide

/-- C2: evaluation of the code at the failing input.  Scenario A never
produces any exported text: the first `inc` on the fresh counter blocks
forever on the registry's non-reentrant lock.  Additionally, the export
value formatting would print the float 3.0 as `3.0`, so even under the
intended lock-free semantics the line would read `requests_total 3.0`, not
`requests_total 3`. -/
theorem c2_scenarioA_blocks :
    scenarioA = .error .blockedForever ∧ pyFloatStr 3 = "3.0".data := by
  with_unfolding_all decide

/-- C7: registration is idempotent.  From a state where `name` is unknown
and the lock is free, the first `register` fixes the descriptor (kind, help
and declared labels), and a second `register` with arbitrary different
arguments returns the same descriptor, leaves the registry unchanged and
raises no error. -/
theorem register_idempotent (r : MetricsRegistry) (name : String)
    (mt1 mt2 : MetricType) (h1 h2 : String) (ls1 ls2 : List Label)
    (hlock : r.lockHeld = false) (hnew : alGet r.series name = none) :
    ∃ r1, r.register name mt1 h1 ls1 = .ok (r1, ⟨name, mt1, h1, ls1⟩) ∧
      r1.register name mt2 h2 ls2 = .ok (r1, ⟨name, mt1, h1, ls1⟩) := by
  refine ⟨{ r with series := alSet r.series name ⟨name, mt1, h1, ls1⟩ }, ?_, ?_⟩
  · rw [MetricsRegistry.register]
    simp [hlock, hnew]
  · rw [MetricsRegistry.register]
    simp [hlock, alGet_alSet_self]

/-- C7 witness: concrete instance on a fresh registry, re-registering with a
different kind and help text. -/
theorem register_idempotent_witness :
    ∃ r1, emptyRegistry.register "m" .counter "h" [] = .ok (r1, ⟨"m", .counter, "h", []⟩) ∧
      r1.register "m" .gauge "other" [⟨"a", "1"⟩] = .ok (r1, ⟨"m", .counter, "h", []⟩) :=
  register_idempotent emptyRegistry "m" .counter .gauge "h" "other" [] [⟨"a", "1"⟩]
    (by decide) (by decide)

/-- C6 counterexample: the two label lists hold the same (name, value) pairs
in different orders, yet — because the sort compares label names only and is
stable — they produce different canonical keys, and the two `set` calls
create two distinct series under `x` instead of the second overwriting the
first. -/
theorem set_label_order_counterexample :
    labelsKeyOf c6Labels1 ≠ labelsKeyOf c6Labels2 ∧ c6Run = .ok 2 := by
  with_unfolding_all decide

/-- Stable sorting by label name maps any two permutations of a label
multiset with pairwise-distinct names to the same list. -/
theorem labelsSorted_eq_of_perm (ls1 ls2 : List Label) (hp : ls1.Perm ls2)
    (hnodup : (ls1.map Label.name).Nodup) : labelsSorted ls1 = labelsSorted ls2 := by
  haveI htot : IsTotal Label (fun a b => a.name ≤ b.name) := ⟨fun a b => le_total a.name b.name⟩
  haveI htr : IsTrans Label (fun a b => a.name ≤ b.name) := ⟨fun _ _ _ h1 h2 => le_trans h1 h2⟩
  haveI hanti : IsAntisymm Label (fun a b => a.name < b.name) :=
    ⟨fun _ _ h1 h2 => absurd h2 (lt_asymm h1)⟩
  have hne1 : List.Pairwise (fun a b : Label => a.name ≠ b.name) ls1 :=
    (List.pairwise_map).1 hnodup
  have hperm1 : (labelsSorted ls1).Perm ls1 := List.perm_insertionSort _ ls1
  have hperm2 : (labelsSorted ls2).Perm ls2 := List.perm_insertionSort _ ls2
  have hall : (labelsSorted ls1).Perm (labelsSorted ls2) :=
    (hperm1.trans hp).trans hperm2.symm
  have hne1s : List.Pairwise (fun a b : Label => a.name ≠ b.name) (labelsSorted ls1) :=
    ((hperm1.pairwise_iff (fun h => Ne.symm h)).2 hne1)
  have hne2s : List.Pairwise (fun a b : Label => a.name ≠ b.name) (labelsSorted ls2) :=
    (((hperm2.trans hp.symm).pairwise_iff (fun h => Ne.symm h)).2 hne1)
  have hs1 : List.Pairwise (fun a b : Label => a.name ≤ b.name) (labelsSorted ls1) :=
    List.sorted_insertionSort _ ls1
  have hs2 : List.Pairwise (fun a b : Label => a.name ≤ b.name) (labelsSorted ls2) :=
    List.sorted_insertionSort _ ls2
  have hlt1 : List.Pairwise (fun a b : Label => a.name < b.name) (labelsSorted ls1) :=
    (hs1.and hne1s).imp (fun h => lt_of_le_of_ne h.1 h.2)
  have hlt2 : List.Pairwise (fun a b : Label => a.name < b.name) (labelsSorted ls2) :=
    (hs2.and hne2s).imp (fun h => lt_of_le_of_ne h.1 h.2)
  exact List.eq_of_perm_of_sorted hall hlt1 hlt2

/-- A successful `set` call produces exactly `setResult`. -/
theorem set_ok (r : MetricsRegistry) (name : String) (v : ℚ) (ls : List Label)
    (t : Int) (s : MetricSeries) (hlock : r.lockHeld = false)
    (hreg : alGet r.series name = some s) :
    r.set name v ls t = .ok (setResult r name v ls t s) := by
  rw [MetricsRegistry.set]
  simp [hlock, hreg, setResult, Metric.labels_key]

/-- The inner sample dict of the written name after a `set`. -/
theorem setResult_metrics_self (r : MetricsRegistry) (name : String) (v : ℚ)
    (ls : List Label) (t : Int) (s : MetricSeries) :
    alGetD (setResult r name v ls t s).metrics name []
      = alSet (alGetD r.metrics name []) (labelsKeyOf ls)
          ⟨name, v, s.metric_type, ls, t, s.help_text⟩ := by
  simp [setResult, alGetD, alGet_alSet_self]

/-- C6 amended: for label lists with pairwise-distinct label names, two
`set` calls whose lists are permutations of each other address the same
series: same canonical key, the second call overwrites the first call's
value, and the number of series under the name does not grow. -/
theorem set_label_order_independent (r : MetricsRegistry) (name : String)
    (s : MetricSeries) (v1 v2 : ℚ) (ls1 ls2 : List Label) (t1 t2 : Int)
    (hlock : r.lockHeld = false) (hreg : alGet r.series name = some s)
    (hperm : ls1.Perm ls2) (hnodup : (ls1.map Label.name).Nodup) :
    labelsKeyOf ls1 = labelsKeyOf ls2 ∧
    ∃ r1 r2, r.set name v1 ls1 t1 = .ok r1 ∧ r1.set name v2 ls2 t2 = .ok r2 ∧
      alGet (alGetD r2.metrics name []) (labelsKeyOf ls1)
        = some ⟨name, v2, s.metric_type, ls2, t2, s.help_text⟩ ∧
      (alGetD r2.metrics name []).length = (alGetD r1.metrics name []).length := by
  have hkey : labelsKeyOf ls1 = labelsKeyOf ls2 := by
    rw [labelsKeyOf, labelsKeyOf, labelsSorted_eq_of_perm ls1 ls2 hperm hnodup]
  refine ⟨hkey, ?_⟩
  have hset1 := set_ok r name v1 ls1 t1 s hlock hreg
  have hset2 := set_ok (setResult r name v1 ls1 t1 s) name v2 ls2 t2 s hlock hreg
  refine ⟨_, _, hset1, hset2, ?_, ?_⟩
  · rw [setResult_metrics_self, setResult_metrics_self, hkey, alGet_alSet_self]
  · rw [setResult_metrics_self, setResult_metrics_self]
    refine length_alSet_of_mem _ _ _ ?_
    rw [← hkey, alGet_alSet_self]
    rfl

/-- C6 amended witness: distinct label names `a`, `b` in swapped order on a
registered gauge `x`. -/
theorem set_label_order_independent_witness :
    labelsKeyOf [⟨"a", "1"⟩, ⟨"b", "2"⟩] = labelsKeyOf [⟨"b", "2"⟩, ⟨"a", "1"⟩] ∧
    ∃ r1 r2, c6Reg.set "x" 1 [⟨"a", "1"⟩, ⟨"b", "2"⟩] 0 = .ok r1 ∧
      r1.set "x" 2 [⟨"b", "2"⟩, ⟨"a", "1"⟩] 0 = .ok r2 ∧
      alGet (alGetD r2.metrics "x" []) (labelsKeyOf [⟨"a", "1"⟩, ⟨"b", "2"⟩])
        = some ⟨"x", 2, .gauge, [⟨"b", "2"⟩, ⟨"a", "1"⟩], 0, ""⟩ ∧
      (alGetD r2.metrics "x" []).length = (alGetD r1.metrics "x" []).length :=
  set_label_order_independent c6Reg "x" ⟨"x", .gauge, "", []⟩ 1 2
    [⟨"a", "1"⟩, ⟨"b", "2"⟩] [⟨"b", "2"⟩, ⟨"a", "1"⟩] 0 0
    (by decide) (by decide) (by decide) (by decide)

/-- C8 counterexample: the store was populated by a single write of the
metric named `a:x` (storage key `"a:x:"`), so it holds no `DataPoint` of any
metric named `a`; yet `read "a"` (no label filter) returns that point,
because key matching is by the string prefix `"a:"`.  The claim's "returns
every DataPoint of that metric name in range" (i.e. exactly those, here the
empty list) fails. -/
theorem read_prefix_collision_counterexample :
    c8Store.read "a" 0 10 none 60 = [⟨5, 1⟩] ∧ "a:x" ≠ "a" := by
  with_unfolding_all decide

/-- C8 amended: a non-empty label filter always yields the empty result, and
with no filter `read` returns exactly the in-range points stored under keys
that extend `name ++ ":"` — the points of that metric name, plus those of
any other series whose storage key shares the prefix. -/
theorem read_filter_and_range (s : MemoryStorage) (name : String)
    (start tEnd step : Int) (ls : List (String × String)) (hls : ls ≠ [])
    (p : DataPoint) :
    s.read name start tEnd (some ls) step = [] ∧
    (p ∈ s.read name start tEnd none step ↔
      ∃ kv, kv ∈ s.data ∧ (name ++ ":").data.isPrefixOf kv.1.data = true ∧
        p ∈ kv.2 ∧ start ≤ p.timestamp ∧ p.timestamp ≤ tEnd) := by
  have htr : labelsTruthy (some ls) = true := by
    cases ls with
    | nil => exact absurd rfl hls
    | cons a t => rfl
  constructor
  · rw [MemoryStorage.read]
    refine List.flatMap_eq_nil_iff.2 (fun kv _ => ?_)
    simp [htr]
  · rw [MemoryStorage.read]
    constructor
    · intro hp
      rcases List.mem_flatMap.1 hp with ⟨kv, hkv, hin⟩
      split_ifs at hin with h1 h2
      · cases hin
      · rcases List.mem_filter.1 hin with ⟨hmem, hrange⟩
        simp only [decide_eq_true_eq] at hrange
        exact ⟨kv, hkv, h1, hmem, hrange.1, hrange.2⟩
      · cases hin
    · intro h
      rcases h with ⟨kv, hkv, hpre, hmem, h1, h2⟩
      refine List.mem_flatMap.2 ⟨kv, hkv, ?_⟩
      rw [if_neg (not_not.2 hpre), if_neg (by decide)]
      exact List.mem_filter.2 ⟨hmem, by simp [h1, h2]⟩

/-- C8 amended witness: on the concrete store, a non-empty filter returns
nothing and the stored point is characterised by the membership equivalence. -/
theorem read_filter_and_range_witness :
    c8Store.read "a" 0 10 (some [("a", "1")]) 60 = [] ∧
    ((⟨5, 1⟩ : DataPoint) ∈ c8Store.read "a" 0 10 none 60 ↔
      ∃ kv, kv ∈ c8Store.data ∧ ("a" ++ ":").data.isPrefixOf kv.1.data = true ∧
        (⟨5, 1⟩ : DataPoint) ∈ kv.2 ∧ (0 : Int) ≤ (5 : Int) ∧ (5 : Int) ≤ 10) :=
  read_filter_and_range c8Store "a" 0 10 60 [("a", "1")] (by decide) ⟨5, 1⟩

/-- C3 counterexample: a 200 response with Content-Type `application/json`
and body `up 1` is marked successful but not parsed — `metrics` stays empty
even though the body parses to one sample — contradicting "parsed regardless
of the Content-Type header". -/
theorem scrape_content_type_counterexample :
    (scrape_target c3Target c3Resp).success = true ∧
    (scrape_target c3Target c3Resp).metrics = [] ∧
    parseEvents [] false "up 1".data = [("up", ([], 1))] := by
  with_unfolding_all decide

/-- C3 amended: for a 200 response, the body is parsed into samples exactly
when the Content-Type header contains `"text/plain"` or
`"application/openmetrics"`; a 200 response with any other Content-Type is
still recorded as a success but its body is not parsed. -/
theorem scrape_content_type_gate (t : ScrapeTargetM) (resp : HttpResponse)
    (h200 : resp.status_code = 200) :
    ((pyIn "text/plain".data resp.content_type.data
        || pyIn "application/openmetrics".data resp.content_type.data) = true →
      (scrape_target t resp).success = true ∧
      (scrape_target t resp).metrics = parseEvents t.labels t.honor_labels resp.text.data) ∧
    ((pyIn "text/plain".data resp.content_type.data
        || pyIn "application/openmetrics".data resp.content_type.data) = false →
      (scrape_target t resp).success = true ∧ (scrape_target t resp).metrics = []) := by
  constructor <;> intro hct <;> rw [scrape_target] <;> simp [h200, hct]

/-- C3 amended witness: a 200 text/plain response is parsed, per the gate. -/
theorem scrape_content_type_gate_witness :
    ((pyIn "text/plain".data ("text/plain; version=0.0.4" : String).data
        || pyIn "application/openmetrics".data ("text/plain; version=0.0.4" : String).data) = true →
      (scrape_target c3Target ⟨200, "text/plain; version=0.0.4", "up 1"⟩).success = true ∧
      (scrape_target c3Target ⟨200, "text/plain; version=0.0.4", "up 1"⟩).metrics
        = parseEvents c3Target.labels c3Target.honor_labels ("up 1" : String).data) ∧
    ((pyIn "text/plain".data ("text/plain; version=0.0.4" : String).data
        || pyIn "application/openmetrics".data ("text/plain; version=0.0.4" : String).data) = false →
      (scrape_target c3Target ⟨200, "text/plain; version=0.0.4", "up 1"⟩).success = true ∧
      (scrape_target c3Target ⟨200, "text/plain; version=0.0.4", "up 1"⟩).metrics = []) :=
  scrape_content_type_gate c3Target ⟨200, "text/plain; version=0.0.4", "up 1"⟩ rfl

theorem splitAll_of_not_mem (c : Char) : ∀ l : Chars, c ∉ l → splitAll c l = [l]
  | [], _ => rfl
  | x :: xs, h => by
    have hx : ¬ x = c := fun hh => h (hh ▸ List.mem_cons_self x xs)
    rw [splitAll, if_neg hx,
      splitAll_of_not_mem c xs (fun hm => h (List.mem_cons_of_mem _ hm))]

theorem splitAll_sep (c : Char) : ∀ a r : Chars, c ∉ a →
    splitAll c (a ++ c :: r) = a :: splitAll c r
  | [], r, _ => by rw [List.nil_append, splitAll, if_pos rfl]
  | x :: a2, r, h => by
    have hx : ¬ x = c := fun hh => h (hh ▸ List.mem_cons_self x a2)
    rw [List.cons_append, splitAll, if_neg hx,
      splitAll_sep c a2 r (fun hm => h (List.mem_cons_of_mem _ hm))]

theorem splitAll_joinNl : ∀ ls : List Chars, ls ≠ [] → (∀ l ∈ ls, nlc ∉ l) →
    splitAll nlc (joinNl ls) = ls
  | [], h, _ => absurd rfl h
  | [a], _, h => by
    rw [joinNl]
    exact splitAll_of_not_mem nlc a (h a (by simp))
  | a :: b :: t, _, h => by
    have hj : joinNl (a :: b :: t) = a ++ nlc :: joinNl (b :: t) := rfl
    rw [hj, splitAll_sep nlc a _ (h a (by simp)),
      splitAll_joinNl (b :: t) (by simp) (fun l hl => h l (List.mem_cons_of_mem _ hl))]

theorem length_filterMap_of_isSome {α β : Type} (f : α → Option β) :
    ∀ l : List α, (∀ x ∈ l, (f x).isSome = true) → (l.filterMap f).length = l.length := by
  intro l
  induction l with
  | nil => intro _; rfl
  | cons x xs ih =>
    intro h
    rcases Option.isSome_iff_exists.1 (h x (by simp)) with ⟨y, hy⟩
    rw [List.filterMap_cons, hy]
    simp only [List.length_cons]
    rw [ih (fun z hz => h z (List.mem_cons_of_mem _ hz))]

/-- C9: parser resilience.  A body made of lines that all parse, plus one
malformed line anywhere in the middle, yields exactly one sample event per
good line — the bad line is skipped individually and aborts nothing. -/
theorem parser_resilience (static : List (String × String)) (honor : Bool)
    (pre post : List Chars) (bad : Chars)
    (hpre : ∀ l ∈ pre, (parseLine static honor l).isSome = true)
    (hpost : ∀ l ∈ post, (parseLine static honor l).isSome = true)
    (hbad : parseLine static honor bad = none)
    (hnl : ∀ l ∈ pre ++ bad :: post, nlc ∉ l) :
    (parseEvents static honor (joinNl (pre ++ bad :: post))).length
      = pre.length + post.length := by
  rw [parseEvents, splitAll_joinNl _ (by simp) hnl, List.filterMap_append]
  rw [List.length_append, List.filterMap_cons, hbad,
    length_filterMap_of_isSome _ _ hpre, length_filterMap_of_isSome _ _ hpost]

/-- C9 witness: two good lines around the malformed line `foo bar` (its
value fails float conversion) give exactly two samples. -/
theorem parser_resilience_witness :
    (∀ l ∈ ["up 1".data], (parseLine [] false l).isSome = true) ∧
    (∀ l ∈ ["mem 2".data], (parseLine [] false l).isSome = true) ∧
    (parseLine [] false "foo bar".data = none) ∧
    (parseEvents [] false
        (joinNl (["up 1".data] ++ "foo bar".data :: ["mem 2".data]))).length = 1 + 1 :=
  have h1 : ∀ l ∈ ["up 1".data], (parseLine [] false l).isSome = true := by
    with_unfolding_all decide
  have h2 : ∀ l ∈ ["mem 2".data], (parseLine [] false l).isSome = true := by
    with_unfolding_all decide
  have h3 : parseLine [] false "foo bar".data = none := by
    with_unfolding_all decide
  ⟨h1, h2, h3,
    parser_resilience [] false ["up 1".data] ["mem 2".data] "foo bar".data h1 h2 h3
      (by with_unfolding_all decide)⟩

theorem digitC_bounds {c : Char} (h : isDigitC c = true) : 48 ≤ c.toNat ∧ c.toNat ≤ 57 := by
  simpa [isDigitC, Bool.and_eq_true, decide_eq_true_eq] using h

/-- A char of the printed-value alphabet is inert for the line grammar. -/
theorem plain_of_digit {c : Char} (h : isDigitC c = true) :
    isPySpace c = false ∧ c ≠ lbc ∧ c ≠ rbc ∧ c ≠ nlc ∧ c ≠ ',' := by
  obtain ⟨h1, h2⟩ := digitC_bounds h
  refine ⟨?_, ?_, ?_, ?_, ?_⟩
  · by_contra hs
    rw [Bool.not_eq_false, isPySpace] at hs
    simp only [Bool.or_eq_true, decide_eq_true_eq] at hs
    rcases hs with ((((hc | hc) | hc) | hc) | hc) | hc <;>
      (subst hc; exact absurd h1 (by decide))
  · intro hc; subst hc; exact absurd h2 (by decide)
  · intro hc; subst hc; exact absurd h2 (by decide)
  · intro hc; subst hc; exact absurd h1 (by decide)
  · intro hc; subst hc; exact absurd h1 (by decide)

theorem natCharsAux_digits : ∀ fuel n : ℕ, ∀ c ∈ natCharsAux fuel n, isDigitC c = true := by
  intro fuel
  induction fuel with
  | zero => intro n c hc; cases hc
  | succ f ih =>
    intro n c hc
    rw [natCharsAux] at hc
    by_cases hn : n = 0
    · rw [if_pos hn] at hc; cases hc
    · rw [if_neg hn] at hc
      rcases List.mem_append.1 hc with hm | hm
      · exact ih _ c hm
      · have hd : n % 10 < 10 := Nat.mod_lt _ (by omega)
        rw [List.mem_singleton] at hm
        subst hm
        set d := n % 10 with hdd
        interval_cases d <;> decide

theorem natChars_digits (n : ℕ) : ∀ c ∈ natChars n, isDigitC c = true := by
  intro c hc
  rw [natChars] at hc
  by_cases hn : n = 0
  · rw [if_pos hn, List.mem_singleton] at hc
    subst hc
    decide
  · rw [if_neg hn] at hc
    exact natCharsAux_digits _ _ c hc

theorem fracCharsAux_digits : ∀ fuel (q : ℚ), 0 ≤ q → q < 1 →
    ∀ c ∈ fracCharsAux fuel q, isDigitC c = true := by
  intro fuel
  induction fuel with
  | zero => intro q _ _ c hc; cases hc
  | succ f ih =>
    intro q h0 h1 c hc
    rw [fracCharsAux] at hc
    by_cases hq : q = 0
    · rw [if_pos hq] at hc; cases hc
    · rw [if_neg hq] at hc
      have h10 : (0 : ℚ) ≤ q * 10 := by positivity
      have hfl0 : (0 : ℤ) ≤ ⌊q * 10⌋ := Int.floor_nonneg.2 h10
      have hflc : ((⌊q * 10⌋.toNat : ℤ) : ℚ) = (⌊q * 10⌋ : ℚ) := by
        rw [Int.toNat_of_nonneg hfl0]
      rcases List.mem_cons.1 hc with hceq | hm
      · subst hceq
        have hlt : ⌊q * 10⌋ < 10 := by
          rw [Int.floor_lt]
          push_cast
          nlinarith
        have hd : ⌊q * 10⌋.toNat < 10 := by omega
        set d := ⌊q * 10⌋.toNat with hdd
        interval_cases d <;> decide
      · refine ih _ ?_ ?_ c hm
        · have := Int.floor_le (q * 10)
          push_cast at hflc ⊢
          rw [hflc]
          linarith
        · have := Int.lt_floor_add_one (q * 10)
          push_cast at hflc ⊢
          rw [hflc]
          linarith

theorem pyFloatStr_alphabet (q : ℚ) :
    ∀ c ∈ pyFloatStr q, isDigitC c = true ∨ c = '.' ∨ c = '-' := by
  intro c hc
  rw [pyFloatStr] at hc
  rcases List.mem_append.1 hc with hm | hm
  · rcases List.mem_append.1 hm with hm2 | hm2
    · by_cases hq : q < 0
      · rw [if_pos hq, List.mem_singleton] at hm2
        subst hm2
        right; right; rfl
      · rw [if_neg hq] at hm2; cases hm2
    · exact Or.inl (natChars_digits _ c hm2)
  · rcases List.mem_cons.1 hm with hceq | hm2
    · subst hceq
      right; left; rfl
    · by_cases hz : fracCharsAux 17 (|q| - ((⌊|q|⌋).toNat : ℚ)) = []
      · rw [if_pos hz, List.mem_singleton] at hm2
        subst hm2
        left; decide
      · rw [if_neg hz] at hm2
        have habs : (0 : ℚ) ≤ |q| := abs_nonneg q
        have hfl0 : (0 : ℤ) ≤ ⌊|q|⌋ := Int.floor_nonneg.2 habs
        have hcast : ((⌊|q|⌋.toNat : ℤ) : ℚ) = (⌊|q|⌋ : ℚ) := by
          rw [Int.toNat_of_nonneg hfl0]
        refine Or.inl (fracCharsAux_digits 17 _ ?_ ?_ c hm2)
        · have := Int.floor_le (|q|)
          push_cast at hcast ⊢
          rw [hcast]
          linarith
        · have := Int.lt_floor_add_one (|q|)
          push_cast at hcast ⊢
          rw [hcast]
          linarith

theorem pyFloatStr_plain (q : ℚ) :
    ∀ c ∈ pyFloatStr q, isPySpace c = false ∧ c ≠ lbc ∧ c ≠ rbc ∧ c ≠ nlc ∧ c ≠ ',' := by
  intro c hc
  rcases pyFloatStr_alphabet q c hc with h | h | h
  · exact plain_of_digit h
  · subst h; refine ⟨by decide, by decide, by decide, by decide, by decide⟩
  · subst h; refine ⟨by decide, by decide, by decide, by decide, by decide⟩

theorem pyFloatStr_ne_nil (q : ℚ) : pyFloatStr q ≠ [] := by
  rw [pyFloatStr]
  intro h
  rcases List.append_eq_nil.1 h with ⟨h1, h2⟩
  cases h2

theorem dropWhile_eq_self_of_head {p : Char → Bool} (l : Chars)
    (h : ∀ c, l.head? = some c → p c = false) : l.dropWhile p = l := by
  cases l with
  | nil => rfl
  | cons x xs => rw [List.dropWhile_cons, if_neg (by simp [h x rfl])]

theorem dropEnd_eq_self {p : Char → Bool} (l : Chars)
    (h : ∀ c, l.getLast? = some c → p c = false) : dropEnd p l = l := by
  rw [dropEnd, dropWhile_eq_self_of_head _ (fun c hc => h c (by rwa [← List.head?_reverse])),
    List.reverse_reverse]

theorem pyStripWith_eq_self {p : Char → Bool} (l : Chars)
    (hh : ∀ c, l.head? = some c → p c = false)
    (hl : ∀ c, l.getLast? = some c → p c = false) : pyStripWith p l = l := by
  rw [pyStripWith, dropWhile_eq_self_of_head _ hh, dropEnd_eq_self _ hl]

theorem pyStrip_eq_self (l : Chars)
    (hh : ∀ c, l.head? = some c → isPySpace c = false)
    (hl : ∀ c, l.getLast? = some c → isPySpace c = false) : pyStrip l = l :=
  pyStripWith_eq_self l hh hl

theorem pyStrip_space_cons (l : Chars) : pyStrip (' ' :: l) = pyStrip l := by
  rw [pyStrip, pyStrip, pyStripWith, pyStripWith, List.dropWhile_cons, if_pos (by decide)]

theorem splitFirst_append_cons (c : Char) : ∀ a r : Chars, c ∉ a →
    splitFirst c (a ++ c :: r) = some (a, r)
  | [], r, _ => by rw [List.nil_append, splitFirst, if_pos rfl]
  | x :: a2, r, h => by
    have hx : ¬ x = c := fun hh => h (hh ▸ List.mem_cons_self x a2)
    rw [List.cons_append, splitFirst, if_neg hx,
      splitFirst_append_cons c a2 r (fun hm => h (List.mem_cons_of_mem _ hm))]
    rfl

theorem splitLast_append_cons (c : Char) (a r : Chars) (h : c ∉ r) :
    splitLast c (a ++ c :: r) = some (a, r) := by
  rw [splitLast]
  have hrev : (a ++ c :: r).reverse = r.reverse ++ c :: a.reverse := by
    rw [List.reverse_append, List.reverse_cons, List.append_assoc]
    rfl
  rw [hrev, splitFirst_append_cons c _ _ (fun hm => h (List.mem_reverse.1 hm))]
  simp

theorem contains_of_mem {c : Char} {l : Chars} (h : c ∈ l) : l.contains c = true := by
  simpa [List.contains, List.elem_iff] using h

theorem contains_eq_false_of_not_mem {c : Char} {l : Chars} (h : c ∉ l) :
    l.contains c = false := by
  rw [← Bool.not_eq_true]
  intro hc
  exact h (by simpa [List.contains, List.elem_iff] using hc)

theorem wordsAux_no_space : ∀ w rest acc : Chars, (∀ c ∈ w, isPySpace c = false) →
    wordsAux (w ++ rest) acc = wordsAux rest (w.reverse ++ acc)
  | [], rest, acc, _ => by simp
  | x :: w2, rest, acc, h => by
    have hx : isPySpace x = false := h x (List.mem_cons_self _ _)
    rw [List.cons_append]
    show wordsAux (x :: (w2 ++ rest)) acc = _
    rw [wordsAux, if_neg (by simp [hx]),
      wordsAux_no_space w2 rest (x :: acc) (fun c hc => h c (List.mem_cons_of_mem _ hc))]
    congr 1
    simp

theorem wordsAux_space (rest acc : Chars) (h : acc ≠ []) :
    wordsAux (' ' :: rest) acc = acc.reverse :: wordsAux rest [] := by
  rw [wordsAux, if_pos (by decide), if_neg h]

theorem wordsAux_nil_acc (acc : Chars) (h : acc ≠ []) : wordsAux [] acc = [acc.reverse] := by
  rw [wordsAux, if_neg h]

theorem splitWs_two (w1 w2 : Chars) (h1 : w1 ≠ []) (h2 : w2 ≠ [])
    (hw1 : ∀ c ∈ w1, isPySpace c = false) (hw2 : ∀ c ∈ w2, isPySpace c = false) :
    splitWs (w1 ++ ' ' :: w2) = [w1, w2] := by
  rw [splitWs, wordsAux_no_space w1 _ [] hw1, List.append_nil,
    wordsAux_space _ _ (by simpa using h1), List.reverse_reverse]
  congr 1
  have hw : wordsAux (w2 ++ []) [] = wordsAux [] (w2.reverse ++ []) :=
    wordsAux_no_space w2 [] [] hw2
  rw [List.append_nil, List.append_nil] at hw
  rw [hw, wordsAux_nil_acc _ (by simpa using h2), List.reverse_reverse]

theorem stripQuotes_wrap (v : Chars) (h1 : v.head? ≠ some qc) (h2 : v.getLast? ≠ some qc) :
    stripQuotes (qc :: v ++ [qc]) = v := by
  cases v with
  | nil => rfl
  | cons x v2 =>
    have hx : ¬ (x = qc) := fun hh => h1 (by rw [← hh]; rfl)
    rw [stripQuotes, pyStripWith, List.cons_append, List.dropWhile_cons, if_pos (by simp),
      List.cons_append, List.dropWhile_cons, if_neg (by simp [hx])]
    rw [dropEnd]
    have hrev : (x :: (v2 ++ [qc])).reverse = qc :: (x :: v2).reverse := by
      simp
    rw [hrev, List.dropWhile_cons, if_pos (by simp),
      dropWhile_eq_self_of_head _ (fun c hc => by
        rw [List.head?_reverse] at hc
        simp only [decide_eq_false_iff_not]
        intro hcq
        exact h2 (by rw [hc, hcq])),
      List.reverse_reverse]

theorem parseLabelStr_render (l : Label) (pre : Chars)
    (hpre : pre = [] ∨ pre = [' '])
    (hn : labelNameOk l.name) (hv : labelValueOk l.value) :
    parseLabelStr (pre ++ renderLabelChunk l) = some (l.name, l.value) := by
  obtain ⟨hnc, hns⟩ := hn
  obtain ⟨hvc, hvh, hvl⟩ := hv
  have heqnm : '=' ∉ pre ++ l.name.data := by
    intro hm
    rcases List.mem_append.1 hm with hm | hm
    · rcases hpre with h | h
      · subst h; cases hm
      · subst h
        rw [List.mem_singleton] at hm
        exact absurd hm (by decide)
    · exact (hnc _ hm).2.1 rfl
  have hsplit : splitFirst '=' ((pre ++ l.name.data) ++ '=' :: (qc :: l.value.data ++ [qc]))
      = some (pre ++ l.name.data, qc :: l.value.data ++ [qc]) :=
    splitFirst_append_cons _ _ _ heqnm
  have hshape : pre ++ renderLabelChunk l
      = (pre ++ l.name.data) ++ '=' :: (qc :: l.value.data ++ [qc]) := by
    simp [renderLabelChunk]
  have hmem : '=' ∈ pre ++ renderLabelChunk l := by
    rw [hshape]
    exact List.mem_append_right _ (List.mem_cons_self _ _)
  rw [parseLabelStr, if_pos (contains_of_mem hmem), hshape, hsplit]
  have hstripn : pyStrip (pre ++ l.name.data) = l.name.data := by
    rcases hpre with h | h
    · subst h; rw [List.nil_append]; exact hns
    · subst h
      rw [List.singleton_append, pyStrip_space_cons]
      exact hns
  dsimp only
  rw [hstripn, stripQuotes_wrap _ hvh hvl]

theorem comma_not_mem_chunk (l : Label) (hn : labelNameOk l.name)
    (hv : labelValueOk l.value) : ',' ∉ renderLabelChunk l := by
  intro hm
  rw [renderLabelChunk] at hm
  rcases List.mem_append.1 hm with hm | hm
  · rcases List.mem_append.1 hm with hm2 | hm2
    · exact (hn.1 _ hm2).1 rfl
    · rcases List.mem_cons.1 hm2 with hc | hc
      · exact absurd hc (by decide)
      · rcases List.mem_cons.1 hc with hc2 | hc2
        · exact absurd hc2 (by decide)
        · exact (hv.1 _ hc2).1 rfl
  · rw [List.mem_singleton] at hm
    exact absurd hm (by decide)

theorem parse_chunks_sp : ∀ ls : List Label,
    (∀ l ∈ ls, labelNameOk l.name ∧ labelValueOk l.value) → ls ≠ [] →
    (splitAll ',' (' ' :: joinCommaSpace (ls.map renderLabelChunk))).filterMap parseLabelStr
      = ls.map (fun l => (l.name, l.value))
  | [], _, hne => absurd rfl hne
  | [l], h, _ => by
    have hl := h l (List.mem_cons_self _ _)
    have hnc : ',' ∉ ' ' :: renderLabelChunk l := by
      intro hm
      rcases List.mem_cons.1 hm with hc | hc
      · exact absurd hc (by decide)
      · exact comma_not_mem_chunk l hl.1 hl.2 hc
    rw [List.map_singleton]
    show (splitAll ',' (' ' :: renderLabelChunk l)).filterMap parseLabelStr = _
    rw [splitAll_of_not_mem _ _ hnc, List.filterMap_cons]
    rw [show (' ' :: renderLabelChunk l) = [' '] ++ renderLabelChunk l from rfl,
      parseLabelStr_render l [' '] (Or.inr rfl) hl.1 hl.2]
    rfl
  | l :: l2 :: rest, h, _ => by
    have hl := h l (List.mem_cons_self _ _)
    have hnc : ',' ∉ ' ' :: renderLabelChunk l := by
      intro hm
      rcases List.mem_cons.1 hm with hc | hc
      · exact absurd hc (by decide)
      · exact comma_not_mem_chunk l hl.1 hl.2 hc
    have hjoin : ' ' :: joinCommaSpace ((l :: l2 :: rest).map renderLabelChunk)
        = (' ' :: renderLabelChunk l)
          ++ ',' :: (' ' :: joinCommaSpace ((l2 :: rest).map renderLabelChunk)) := rfl
    rw [hjoin, splitAll_sep _ _ _ hnc, List.filterMap_cons,
      show (' ' :: renderLabelChunk l) = [' '] ++ renderLabelChunk l from rfl,
      parseLabelStr_render l [' '] (Or.inr rfl) hl.1 hl.2,
      parse_chunks_sp (l2 :: rest) (fun x hx => h x (List.mem_cons_of_mem _ hx)) (by simp)]
    rfl

theorem parse_chunks : ∀ ls : List Label,
    (∀ l ∈ ls, labelNameOk l.name ∧ labelValueOk l.value) → ls ≠ [] →
    (splitAll ',' (joinCommaSpace (ls.map renderLabelChunk))).filterMap parseLabelStr
      = ls.map (fun l => (l.name, l.value))
  | [], _, hne => absurd rfl hne
  | [l], h, _ => by
    have hl := h l (List.mem_cons_self _ _)
    rw [List.map_singleton]
    show (splitAll ',' (joinCommaSpace [renderLabelChunk l])).filterMap parseLabelStr = _
    rw [joinCommaSpace, splitAll_of_not_mem _ _ (comma_not_mem_chunk l hl.1 hl.2),
      List.filterMap_cons,
      show renderLabelChunk l = [] ++ renderLabelChunk l from rfl,
      parseLabelStr_render l [] (Or.inl rfl) hl.1 hl.2]
    rfl
  | l :: l2 :: rest, h, _ => by
    have hl := h l (List.mem_cons_self _ _)
    have hjoin : joinCommaSpace ((l :: l2 :: rest).map renderLabelChunk)
        = renderLabelChunk l
          ++ ',' :: (' ' :: joinCommaSpace ((l2 :: rest).map renderLabelChunk)) := rfl
    rw [hjoin, splitAll_sep _ _ _ (comma_not_mem_chunk l hl.1 hl.2), List.filterMap_cons,
      show renderLabelChunk l = [] ++ renderLabelChunk l from rfl,
      parseLabelStr_render l [] (Or.inl rfl) hl.1 hl.2,
      parse_chunks_sp (l2 :: rest) (fun x hx => h x (List.mem_cons_of_mem _ hx)) (by simp)]
    rfl

theorem getLast?_append_right (l1 l2 : Chars) (h : l2 ≠ []) :
    (l1 ++ l2).getLast? = l2.getLast? := by
  rw [List.getLast?_append]
  cases hl : l2.getLast? with
  | none => exact absurd (List.getLast?_eq_none_iff.1 hl) h
  | some c => rfl

theorem pyStrip_eq_self_of_all (l : Chars) (h : ∀ c ∈ l, isPySpace c = false) :
    pyStrip l = l :=
  pyStrip_eq_self l
    (fun c hc => h c (List.mem_of_mem_head? (Option.mem_def.2 hc)))
    (fun c hc => h c (List.mem_of_mem_getLast? (Option.mem_def.2 hc)))

/-- `pyFloat` already strips its input, so a leading space is immaterial. -/
theorem pyFloat_space_cons (l : Chars) : pyFloat (' ' :: l) = pyFloat l := by
  rw [pyFloat, pyFloat, pyStrip_space_cons]

/-- The round trip of one rendered sample line: parsing the exported line
of a well-formed metric (with no static target labels) recovers exactly the
exported name and the metric's labels and value. -/
theorem parseLine_renderSample (honor : Bool) (nm : String) (m : Metric)
    (hn : nameOk nm) (hlab : ∀ l ∈ m.labels, labelNameOk l.name ∧ labelValueOk l.value)
    (hval : valueOk m.value) :
    parseLine [] honor (renderSample nm m) = some (nm, (m.labels, m.value)) := by
  obtain ⟨hAne, hAchars, hAhash⟩ := hn
  obtain ⟨a, A2, hA⟩ := List.exists_cons_of_ne_nil hAne
  have hVne : pyFloatStr m.value ≠ [] := pyFloatStr_ne_nil m.value
  have hVplain := pyFloatStr_plain m.value
  have hbase : (if honor then ([] : List (String × String)) else []) = [] := by
    cases honor <;> rfl
  by_cases hls : m.labels = []
  · -- unlabeled line: `name value`
    have hshape : renderSample nm m = nm.data ++ ' ' :: pyFloatStr m.value := by
      rw [renderSample, if_pos hls]
      simp
    have hstrip : pyStrip (nm.data ++ ' ' :: pyFloatStr m.value)
        = nm.data ++ ' ' :: pyFloatStr m.value := by
      refine pyStrip_eq_self _ ?_ ?_
      · intro c hc
        rw [hA, List.cons_append] at hc
        cases hc
        exact (hAchars a (hA ▸ List.mem_cons_self _ _)).1
      · intro c hc
        rw [getLast?_append_right _ _ (by simp),
          show (' ' :: pyFloatStr m.value) = [' '] ++ pyFloatStr m.value from rfl,
          getLast?_append_right _ _ hVne] at hc
        exact (hVplain c (List.mem_of_mem_getLast? (Option.mem_def.2 hc))).1
    have hnolb : ¬ ((nm.data ++ ' ' :: pyFloatStr m.value).contains lbc = true) := by
      rw [contains_eq_false_of_not_mem]
      · simp
      · intro hm
        rcases List.mem_append.1 hm with hm | hm
        · exact (hAchars _ hm).2 rfl
        · rcases List.mem_cons.1 hm with hc | hc
          · exact absurd hc.symm (by decide)
          · exact (hVplain _ hc).2.1 rfl
    rw [parseLine]
    simp only [hshape, hstrip]
    rw [if_neg (by rw [hA]; simp),
      if_neg (by rw [hA] at hAhash ⊢; simpa using hAhash),
      if_neg hnolb,
      splitWs_two _ _ hAne hVne (fun c hc => (hAchars c hc).1)
        (fun c hc => (hVplain c hc).1)]
    dsimp only
    rw [hval, hls, hbase]
    rfl
  · -- labeled line: `name{...} value`
    have hlabne : m.labels.map renderLabelChunk ≠ [] := by
      simpa using hls
    have hshape : renderSample nm m
        = nm.data ++ lbc ::
            (joinCommaSpace (m.labels.map renderLabelChunk)
              ++ rbc :: ' ' :: pyFloatStr m.value) := by
      rw [renderSample, if_neg hls]
      simp
    set J := joinCommaSpace (m.labels.map renderLabelChunk) with hJ
    have hlastE : (nm.data ++ lbc :: (J ++ rbc :: ' ' :: pyFloatStr m.value)).getLast?
        = (pyFloatStr m.value).getLast? := by
      rw [getLast?_append_right _ _ (by simp),
        show lbc :: (J ++ rbc :: ' ' :: pyFloatStr m.value)
          = [lbc] ++ (J ++ rbc :: ' ' :: pyFloatStr m.value) from rfl,
        getLast?_append_right _ _ (by simp),
        getLast?_append_right _ _ (by simp),
        show rbc :: ' ' :: pyFloatStr m.value = [rbc, ' '] ++ pyFloatStr m.value from rfl,
        getLast?_append_right _ _ hVne]
    have hstrip : pyStrip (nm.data ++ lbc :: (J ++ rbc :: ' ' :: pyFloatStr m.value))
        = nm.data ++ lbc :: (J ++ rbc :: ' ' :: pyFloatStr m.value) := by
      refine pyStrip_eq_self _ ?_ ?_
      · intro c hc
        rw [hA, List.cons_append] at hc
        cases hc
        exact (hAchars a (hA ▸ List.mem_cons_self _ _)).1
      · intro c hc
        rw [hlastE] at hc
        exact (hVplain c (List.mem_of_mem_getLast? (Option.mem_def.2 hc))).1
    have hsf : splitFirst lbc
        (nm.data ++ lbc :: (J ++ rbc :: ' ' :: pyFloatStr m.value))
        = some (nm.data, J ++ rbc :: ' ' :: pyFloatStr m.value) :=
      splitFirst_append_cons _ _ _ (fun hm => (hAchars _ hm).2 rfl)
    have hsl : splitLast rbc (J ++ rbc :: (' ' :: pyFloatStr m.value))
        = some (J, ' ' :: pyFloatStr m.value) := by
      refine splitLast_append_cons _ _ _ ?_
      intro hm
      rcases List.mem_cons.1 hm with hc | hc
      · exact absurd hc (by decide)
      · exact (hVplain _ hc).2.2.1 rfl
    have hstripA : pyStrip nm.data = nm.data :=
      pyStrip_eq_self_of_all _ (fun c hc => (hAchars c hc).1)
    have hlabs : (m.labels.map (fun l => (l.name, l.value))).map
        (fun q => Label.mk q.1 q.2) = m.labels := by
      rw [List.map_map]
      exact (List.map_congr_left (fun x _ => rfl)).trans (List.map_id _)
    rw [parseLine]
    simp only [hshape, hstrip]
    rw [if_neg (by rw [hA]; simp),
      if_neg (by rw [hA] at hAhash ⊢; simpa using hAhash),
      if_pos (contains_of_mem (List.mem_append_right _ (List.mem_cons_self _ _))),
      hsf]
    dsimp only
    rw [hsl]
    dsimp only
    rw [pyFloat_space_cons, hval]
    dsimp only
    rw [hstripA, hbase, parse_chunks m.labels hlab hls, List.nil_append, hlabs]

theorem reverse_dropWhile_last {p : Char → Bool} {x : Char} (hx : p x = false) :
    ∀ ys : Chars, ∃ t, (List.dropWhile p (ys ++ [x])).reverse = x :: t
  | [] => by
    rw [List.nil_append, List.dropWhile_cons, if_neg (by simp [hx])]
    exact ⟨[], rfl⟩
  | y :: ys => by
    rw [List.cons_append, List.dropWhile_cons]
    by_cases hy : p y = true
    · rw [if_pos hy]
      exact reverse_dropWhile_last hx ys
    · rw [if_neg hy]
      exact ⟨ys.reverse ++ [y], by simp⟩

theorem pyStrip_hash_cons (l : Chars) : ∃ t, pyStrip ('#' :: l) = '#' :: t := by
  rw [pyStrip, pyStripWith, List.dropWhile_cons, if_neg (by decide), dropEnd]
  have hrev : ('#' :: l).reverse = l.reverse ++ ['#'] := by simp
  rw [hrev]
  exact reverse_dropWhile_last (by decide) l.reverse

/-- Comment lines (and the HELP/TYPE lines of the export) parse to nothing. -/
theorem parseLine_hash (static : List (String × String)) (honor : Bool) (l : Chars) :
    parseLine static honor ('#' :: l) = none := by
  obtain ⟨t, ht⟩ := pyStrip_hash_cons l
  rw [parseLine]
  simp only [ht]
  rw [if_neg (by simp), if_pos (show ('#' :: t).head? = some '#' from rfl)]

theorem filterMap_eq_map_of_some {α β : Type} (f : α → Option β) (g : α → β) :
    ∀ l : List α, (∀ x ∈ l, f x = some (g x)) → l.filterMap f = l.map g
  | [], _ => rfl
  | x :: xs, h => by
    rw [List.filterMap_cons, h x (List.mem_cons_self _ _), List.map_cons,
      filterMap_eq_map_of_some f g xs (fun z hz => h z (List.mem_cons_of_mem _ hz))]

section AListPerm

variable {κ σ γ : Type} [DecidableEq κ]

theorem alGet_eq_some_mem : ∀ (l : List (κ × γ)) (k : κ) (v : γ),
    alGet l k = some v → (k, v) ∈ l
  | [], _, _, h => by cases h
  | p :: ps, k, v, h => by
    rw [alGet] at h
    by_cases hp : p.1 = k
    · rw [if_pos hp] at h
      injection h with h2
      have hpv : p = (k, v) := Prod.ext hp h2
      rw [← hpv]
      exact List.mem_cons_self _ _
    · rw [if_neg hp] at h
      exact List.mem_cons_of_mem _ (alGet_eq_some_mem ps k v h)

theorem isSome_alGet_of_mem_keys : ∀ (l : List (κ × γ)) (k : κ),
    k ∈ alKeys l → (alGet l k).isSome = true
  | [], _, h => by cases h
  | p :: ps, k, h => by
    rw [alGet]
    by_cases hp : p.1 = k
    · rw [if_pos hp]; rfl
    · rw [if_neg hp]
      rcases List.mem_cons.1 h with he | hm
      · exact absurd he.symm hp
      · exact isSome_alGet_of_mem_keys ps k hm

theorem alGet_alErase_ne : ∀ (l : List (κ × γ)) (k e : κ), k ≠ e →
    alGet (alErase l e) k = alGet l k
  | [], _, _, _ => rfl
  | p :: ps, k, e, h => by
    rw [alErase]
    by_cases hp : p.1 = e
    · rw [if_pos hp]
      have hpk : ¬ (p.1 = k) := fun hh => h (hh.symm.trans hp)
      conv_rhs => rw [alGet]
      rw [if_neg hpk]
    · rw [if_neg hp, alGet, alGet]
      by_cases hk : p.1 = k
      · rw [if_pos hk, if_pos hk]
      · rw [if_neg hk, if_neg hk, alGet_alErase_ne ps k e h]

theorem alErase_sublist : ∀ (l : List (κ × γ)) (e : κ), (alErase l e).Sublist l
  | [], _ => List.Sublist.refl _
  | p :: ps, e => by
    rw [alErase]
    by_cases hp : p.1 = e
    · rw [if_pos hp]
      exact List.sublist_cons_self _ _
    · rw [if_neg hp]
      exact List.Sublist.cons₂ _ (alErase_sublist ps e)

theorem not_mem_keys_alErase : ∀ (l : List (κ × γ)), (alKeys l).Nodup →
    ∀ e : κ, e ∉ alKeys (alErase l e)
  | [], _, e => by intro h; cases h
  | p :: ps, hnd, e => by
    have hnd2 := List.nodup_cons.1 hnd
    rw [alErase]
    by_cases hp : p.1 = e
    · rw [if_pos hp]
      intro hm
      exact hnd2.1 (hp ▸ hm)
    · rw [if_neg hp]
      intro hm
      rcases List.mem_cons.1 hm with he | hm2
      · exact hp he.symm
      · exact not_mem_keys_alErase ps hnd2.2 e hm2

theorem perm_cons_alErase : ∀ (l : List (κ × γ)) (k : κ) (v : γ),
    alGet l k = some v → l.Perm ((k, v) :: alErase l k)
  | [], _, _, h => by cases h
  | p :: ps, k, v, h => by
    rw [alGet] at h
    rw [alErase]
    by_cases hp : p.1 = k
    · rw [if_pos hp] at h ⊢
      injection h with h2
      have hpv : p = (k, v) := Prod.ext hp h2
      rw [hpv]
    · rw [if_neg hp] at h ⊢
      exact ((perm_cons_alErase ps k v h).cons p).trans (List.Perm.swap _ _ _)

/-- Summing the per-name sample groups over a covering key list is, up to
permutation, the same as summing them over the dict itself. -/
theorem cover_perm : ∀ (names : List (κ × σ)) (al : List (κ × List γ)),
    (alKeys names).Nodup → (alKeys al).Nodup →
    (∀ k ∈ alKeys al, k ∈ alKeys names) →
    (names.flatMap (fun p => alGetD al p.1 [])).Perm (al.flatMap (fun p => p.2))
  | [], al, _, _, hcov => by
    cases al with
    | nil => exact List.Perm.refl _
    | cons q qs => exact absurd (hcov q.1 (List.mem_cons_self _ _)) (fun hx => by cases hx)
  | p :: rest, al, hnn, hna, hcov => by
    have hnn2 := List.nodup_cons.1 hnn
    rw [List.flatMap_cons]
    cases hget : alGet al p.1 with
    | none =>
      rw [alGetD, hget, Option.getD_none, List.nil_append]
      refine cover_perm rest al hnn2.2 hna ?_
      intro k hk
      rcases List.mem_cons.1 (hcov k hk) with he | hm
      · exfalso
        have := isSome_alGet_of_mem_keys al k hk
        rw [he, hget] at this
        cases this
      · exact hm
    | some inner =>
      rw [alGetD, hget, Option.getD_some]
      have hperm_al : al.Perm ((p.1, inner) :: alErase al p.1) :=
        perm_cons_alErase _ _ _ hget
      have hrest : rest.flatMap (fun q => alGetD al q.1 [])
          = rest.flatMap (fun q => alGetD (alErase al p.1) q.1 []) := by
        refine List.flatMap_congr (fun q hq => ?_)
        have hqk : q.1 ≠ p.1 := by
          intro he
          exact hnn2.1 (he ▸ List.mem_map_of_mem Prod.fst hq)
        rw [alGetD, alGetD, alGet_alErase_ne al q.1 p.1 hqk]
      have hkeyse : (alKeys (alErase al p.1)).Nodup :=
        List.Nodup.sublist (List.Sublist.map Prod.fst (alErase_sublist al p.1)) hna
      have hIH := cover_perm rest (alErase al p.1) hnn2.2 hkeyse (fun k hk => by
        have hk_al : k ∈ alKeys al :=
          (List.Sublist.map Prod.fst (alErase_sublist al p.1)).mem hk
        rcases List.mem_cons.1 (hcov k hk_al) with he | hm
        · exact absurd (he ▸ hk) (not_mem_keys_alErase al hna p.1)
        · exact hm)
      rw [hrest]
      refine (List.Perm.append_left inner hIH).trans ?_
      have : ((p.1, inner) :: alErase al p.1).flatMap (fun p => p.2)
          = inner ++ (alErase al p.1).flatMap (fun p => p.2) := by
        rw [List.flatMap_cons]
      rw [← this]
      exact (List.Perm.flatMap_right _ hperm_al).symm

end AListPerm

theorem mem_joinCommaSpace : ∀ (cs : List Chars) (c : Char), c ∈ joinCommaSpace cs →
    (∃ ch ∈ cs, c ∈ ch) ∨ c = ',' ∨ c = ' '
  | [], _, h => by cases h
  | [ch], c, h => Or.inl ⟨ch, List.mem_cons_self _ _, h⟩
  | ch :: ch2 :: cs, c, h => by
    rcases List.mem_append.1 h with hm | hm
    · exact Or.inl ⟨ch, List.mem_cons_self _ _, hm⟩
    · rcases List.mem_cons.1 hm with he | hm2
      · exact Or.inr (Or.inl he)
      · rcases List.mem_cons.1 hm2 with he | hm3
        · exact Or.inr (Or.inr he)
        · rcases mem_joinCommaSpace (ch2 :: cs) c hm3 with ⟨ch3, hch3, hc3⟩ | hr
          · exact Or.inl ⟨ch3, List.mem_cons_of_mem _ hch3, hc3⟩
          · exact Or.inr hr

theorem nlc_not_mem_chunk (l : Label) (hn : labelNameOk l.name)
    (hv : labelValueOk l.value) : nlc ∉ renderLabelChunk l := by
  intro hm
  rw [renderLabelChunk] at hm
  rcases List.mem_append.1 hm with hm | hm
  · rcases List.mem_append.1 hm with hm2 | hm2
    · exact (hn.1 _ hm2).2.2 rfl
    · rcases List.mem_cons.1 hm2 with hc | hc
      · exact absurd hc (by decide)
      · rcases List.mem_cons.1 hc with hc2 | hc2
        · exact absurd hc2 (by decide)
        · exact (hv.1 _ hc2).2 rfl
  · rw [List.mem_singleton] at hm
    exact absurd hm (by decide)

theorem nlc_not_mem_renderSample (nm : String) (m : Metric) (hn : nameOk nm)
    (hlab : ∀ l ∈ m.labels, labelNameOk l.name ∧ labelValueOk l.value) :
    nlc ∉ renderSample nm m := by
  intro hm
  rw [renderSample] at hm
  rcases List.mem_append.1 hm with hm | hm
  · rcases List.mem_append.1 hm with hm2 | hm2
    · have := (hn.2.1 _ hm2).1
      rw [show nlc = '\n' from rfl] at this
      exact absurd this (by decide)
    · by_cases hls : m.labels = []
      · rw [if_pos hls] at hm2; cases hm2
      · rw [if_neg hls] at hm2
        rcases List.mem_append.1 hm2 with hm3 | hm3
        · rcases List.mem_cons.1 hm3 with hc | hc
          · exact absurd hc (by decide)
          · rcases mem_joinCommaSpace _ _ hc with ⟨ch, hch, hc2⟩ | hr
            · rcases List.mem_map.1 hch with ⟨lab, hlabm, hlabeq⟩
              rw [← hlabeq] at hc2
              exact nlc_not_mem_chunk lab (hlab lab hlabm).1 (hlab lab hlabm).2 hc2
            · rcases hr with hr | hr <;> exact absurd hr (by decide)
        · rw [List.mem_singleton] at hm3
          exact absurd hm3 (by decide)
  · rcases List.mem_cons.1 hm with hc | hc
    · exact absurd hc (by decide)
    · have := (pyFloatStr_plain m.value _ hc).2.2.2.1
      exact this rfl

theorem nlc_not_mem_helpLine (nm : String) (s : MetricSeries)
    (hn : nlc ∉ nm.data) (hh : nlc ∉ s.help_text.data) :
    nlc ∉ helpLine nm s := by
  intro hm
  rw [helpLine] at hm
  simp only [List.mem_append, List.mem_cons] at hm
  rcases hm with (h | h) | h | h
  · exact absurd h (by decide)
  · exact hn h
  · exact absurd h (by decide)
  · exact hh h

theorem nlc_not_mem_typeLine (nm : String) (s : MetricSeries)
    (hn : nlc ∉ nm.data) : nlc ∉ typeLine nm s := by
  intro hm
  rw [typeLine] at hm
  simp only [List.mem_append, List.mem_cons] at hm
  rcases hm with (h | h) | h | h
  · exact absurd h (by decide)
  · exact hn h
  · exact absurd h (by decide)
  · cases hs : s.metric_type <;> rw [hs] at h <;> exact absurd h (by decide)

/-- The HELP and TYPE lines of a series block parse to nothing and each
sample line parses back to its triple. -/
theorem block_filterMap (honor : Bool) (nm : String) (s : MetricSeries)
    (inner : List (String × Metric))
    (hwf : ∀ q ∈ inner, nameOk nm
      ∧ (∀ l ∈ q.2.labels, labelNameOk l.name ∧ labelValueOk l.value)
      ∧ valueOk q.2.value) :
    (helpLine nm s :: typeLine nm s :: inner.map (fun kv => renderSample nm kv.2)).filterMap
        (parseLine [] honor)
      = inner.map (fun kv => (nm, (kv.2.labels, kv.2.value))) := by
  have h1 : parseLine [] honor (helpLine nm s) = none := parseLine_hash [] honor _
  have h2 : parseLine [] honor (typeLine nm s) = none := parseLine_hash [] honor _
  rw [List.filterMap_cons, h1, List.filterMap_cons, h2, List.filterMap_map]
  exact filterMap_eq_map_of_some _ _ inner (fun q hq =>
    parseLine_renderSample honor nm q.2 (hwf q hq).1 (hwf q hq).2.1 (hwf q hq).2.2)

theorem mem_keys_of_isSome {κ γ : Type} [DecidableEq κ] :
    ∀ (l : List (κ × γ)) (k : κ), (alGet l k).isSome = true → k ∈ alKeys l
  | [], _, h => by cases h
  | p :: ps, k, h => by
    rw [alGet] at h
    by_cases hp : p.1 = k
    · exact hp ▸ List.mem_cons_self _ _
    · rw [if_neg hp] at h
      exact List.mem_cons_of_mem _ (mem_keys_of_isSome ps k h)

theorem alGet_map_values {κ β γ : Type} [DecidableEq κ] (f : β → γ) :
    ∀ (l : List (κ × β)) (k : κ),
    alGet (l.map (fun p => (p.1, f p.2))) k = (alGet l k).map f
  | [], _ => rfl
  | p :: ps, k => by
    rw [List.map_cons, alGet, alGet]
    by_cases hp : p.1 = k
    · rw [if_pos hp, if_pos hp]
      rfl
    · rw [if_neg hp, if_neg hp, alGet_map_values f ps k]

theorem alKeys_map_values {κ β γ : Type} (f : β → γ) (l : List (κ × β)) :
    alKeys (l.map (fun p => (p.1, f p.2))) = alKeys l := by
  rw [alKeys, alKeys, List.map_map]
  rfl

/-- C4 amended: on a registry satisfying the structural invariant and the
round-trip well-formedness conditions, re-parsing the exported text through
the scrape parser (no static target labels) reproduces the catalog's
sample triples up to permutation — hence the same set of
(name, label-set, value) triples. -/
theorem export_parse_roundtrip (honor : Bool) (r : MetricsRegistry)
    (hinv : RegInvariant r) (hwf : RegWF r) :
    (parseEvents [] honor (export_prometheus r)).Perm
      ((MetricsRegistry.get_all_metrics r).map (fun m => (m.name, (m.labels, m.value)))) := by
  obtain ⟨hndM, hndS, hinv3⟩ := hinv
  obtain ⟨hwfS, hwfM⟩ := hwf
  have hsp : (List.insertionSort (fun a b : String × MetricSeries => a.1 ≤ b.1)
      r.series).Perm r.series := List.perm_insertionSort _ _
  have hinner : ∀ p : String × MetricSeries, ∀ kv ∈ alGetD r.metrics p.1 [],
      metricWF kv.2 ∧ kv.2.name = p.1 := by
    intro p kv hkv
    cases halG : alGet r.metrics p.1 with
    | none => rw [alGetD, halG] at hkv; cases hkv
    | some inner =>
      rw [alGetD, halG, Option.getD_some] at hkv
      have hmem := alGet_eq_some_mem _ _ _ halG
      exact ⟨hwfM _ hmem kv hkv, ((hinv3 _ hmem).2 kv hkv).1⟩
  by_cases hser : r.series = []
  · have hmet : r.metrics = [] := by
      cases hmm : r.metrics with
      | nil => rfl
      | cons q qs =>
        have hq := (hinv3 q (hmm ▸ List.mem_cons_self _ _)).1
        rw [hser] at hq
        cases hq
    have hp0 : parseLine ([] : List (String × String)) honor [] = none := rfl
    rw [parseEvents, export_prometheus, exportLines, hser, hmet]
    simp [MetricsRegistry.get_all_metrics, hmet, splitAll, joinNl, hp0]
  · have hsorted_ne : List.insertionSort (fun a b : String × MetricSeries => a.1 ≤ b.1)
        r.series ≠ [] := by
      intro hh
      exact hser (List.Perm.eq_nil (hh ▸ hsp.symm))
    have hlines_ne : exportLines r ≠ [] := by
      rw [exportLines]
      obtain ⟨q0, qs0, hq0⟩ := List.exists_cons_of_ne_nil hsorted_ne
      rw [hq0, List.flatMap_cons]
      simp
    have hnlfree : ∀ l ∈ exportLines r, nlc ∉ l := by
      intro l hl
      rw [exportLines] at hl
      rcases List.mem_flatMap.1 hl with ⟨p, hp, hlm⟩
      have hpser : p ∈ r.series := (hsp.mem_iff).1 hp
      have hS := hwfS p hpser
      rcases List.mem_cons.1 hlm with he | hlm2
      · rw [he]
        exact nlc_not_mem_helpLine _ _ hS.1 hS.2
      · rcases List.mem_cons.1 hlm2 with he | hlm3
        · rw [he]
          exact nlc_not_mem_typeLine _ _ hS.1
        · rcases List.mem_map.1 hlm3 with ⟨kv, hkv, hkveq⟩
          obtain ⟨hmwf, hname⟩ := hinner p kv hkv
          rw [← hkveq]
          refine nlc_not_mem_renderSample p.1 kv.2 ?_ hmwf.2.1
          rw [← hname]
          exact hmwf.1
    have hparse : parseEvents [] honor (export_prometheus r)
        = (exportLines r).filterMap (parseLine [] honor) := by
      rw [parseEvents, export_prometheus, splitAll_joinNl _ hlines_ne hnlfree]
    rw [hparse, exportLines, List.filterMap_flatMap]
    have hblocks : ∀ p ∈ List.insertionSort
        (fun a b : String × MetricSeries => a.1 ≤ b.1) r.series,
        (helpLine p.1 p.2 :: typeLine p.1 p.2 ::
            (alGetD r.metrics p.1 []).map (fun kv => renderSample p.1 kv.2)).filterMap
          (parseLine [] honor)
        = (alGetD r.metrics p.1 []).map
            (fun kv => (kv.2.name, (kv.2.labels, kv.2.value))) := by
      intro p _
      rw [block_filterMap honor p.1 p.2 _ (fun q hq => by
        obtain ⟨hmwf, hname⟩ := hinner p q hq
        exact ⟨hname ▸ hmwf.1, hmwf.2.1, hmwf.2.2⟩)]
      exact List.map_congr_left (fun kv hkv => by rw [(hinner p kv hkv).2])
    rw [List.flatMap_congr hblocks]
    have hstep1 := List.Perm.flatMap_right
      (fun p : String × MetricSeries => (alGetD r.metrics p.1 []).map
        (fun kv : String × Metric => (kv.2.name, (kv.2.labels, kv.2.value)))) hsp
    refine hstep1.trans ?_
    have hgetd : ∀ p : String × MetricSeries,
        (alGetD r.metrics p.1 []).map
            (fun kv : String × Metric => (kv.2.name, (kv.2.labels, kv.2.value)))
          = alGetD (r.metrics.map (fun p2 => (p2.1,
              p2.2.map (fun kv : String × Metric => (kv.2.name, (kv.2.labels, kv.2.value)))))) p.1 [] := by
      intro p
      rw [alGetD, alGetD, alGet_map_values]
      cases alGet r.metrics p.1 <;> rfl
    rw [List.flatMap_congr (fun p _ => hgetd p)]
    have hcov := cover_perm r.series
      (r.metrics.map (fun p2 => (p2.1,
        p2.2.map (fun kv : String × Metric => (kv.2.name, (kv.2.labels, kv.2.value))))))
      hndS (by rw [alKeys_map_values]; exact hndM) (by
        rw [alKeys_map_values]
        intro k hk
        rcases List.mem_map.1 hk with ⟨p2, hp2, hp2k⟩
        have := (hinv3 p2 hp2).1
        exact mem_keys_of_isSome _ _ (hp2k ▸ this))
    refine hcov.trans ?_
    rw [List.flatMap_map, MetricsRegistry.get_all_metrics, List.map_flatMap]
    refine List.Perm.of_eq (List.flatMap_congr (fun p2 _ => ?_))
    rw [List.map_map]
    rfl

/-- C4 counterexample: on a registry whose single sample carries the label
value `1,b` (a comma), the re-parsed triples are not a permutation of the
catalog's triples — the parser splits the label block at the comma, so the
label-set key comes back as `a=1` instead of `a=1,b`.  The round trip fails
even as a set. -/
theorem export_roundtrip_counterexample :
    (parseEvents [] false (export_prometheus c4Reg)).map tripleKey = [("x", ("a=1", 1))] ∧
    (MetricsRegistry.get_all_metrics c4Reg).map
        (fun m => (m.name, (labelsKeyOf m.labels, m.value))) = [("x", ("a=1,b", 1))] ∧
    ¬ ((parseEvents [] false (export_prometheus c4Reg)).map tripleKey).Perm
        ((MetricsRegistry.get_all_metrics c4Reg).map
          (fun m => (m.name, (labelsKeyOf m.labels, m.value)))) := by
  with_unfolding_all decide

/-- C4 amended witness: on a concrete two-series registry, the invariant and
well-formedness hypotheses hold by computation and the round trip applies. -/
theorem export_parse_roundtrip_witness :
    (parseEvents [] false (export_prometheus c4Good)).Perm
      ((MetricsRegistry.get_all_metrics c4Good).map
        (fun m => (m.name, (m.labels, m.value)))) :=
  export_parse_roundtrip false c4Good (by with_unfolding_all decide)
    (by with_unfolding_all decide)

end Pymon
